import Mathlib

set_option maxRecDepth 40000

/-!
Verification development for the KlarText repository.

This file gives a shallow embedding, in Lean 4, of the deterministic core of
the repository: the sentence/word segmentation and readability metrics of
demo/demo_logger.py, its guardrail evaluation and aggregate statistics, the
JSONL log loaders of demo/demo_logger.py and
services/api/app/core/run_logger.py, and the PDF text-cleanup transform of
apps/demo/pdf_utils.py (identical to the copy in
services/api/app/core/pdf_extractor.py).

Strings are modelled as Lean String / List Char; Python floats are modelled as
exact rationals (ℚ), with Python round() modelled as exact round-half-to-even
(pyRound); the Python re operations used by the source are embedded as
explicit character scanners that follow the leftmost, non-overlapping match
semantics of re.sub / re.split / re.findall for the concrete patterns
appearing in the source.  json.loads is an external (standard-library)
dependency and is modelled as an explicit parse parameter
String → Option LogEntry (none models a raised json.JSONDecodeError).
-/

/-- Python whitespace (the character class matched by str.strip() and by the
regex class in str patterns): ASCII whitespace plus the common Unicode
whitespace code points. -/
def isPySpace (c : Char) : Bool :=
  c = ' ' || c = '\t' || c = '\n' || c = '\r' || c = '\x0b' || c = '\x0c' ||
  ('\x1c' ≤ c && c ≤ '\x1f') || c = '\x85' || c = '\xa0' || c = ' ' ||
  (' ' ≤ c && c ≤ ' ') || c = '\u2028' || c = '\u2029' ||
  c = ' ' || c = ' ' || c = '　'

/-- Removes the maximal whitespace suffix of a character list (the trailing
half of Python str.strip()). -/
def stripTrail : List Char → List Char
  | [] => []
  | c :: rest =>
    let r := stripTrail rest
    if r.isEmpty && isPySpace c then [] else c :: r

/-- Python str.strip(): drop the maximal whitespace prefix and suffix. -/
def pyStrip (l : List Char) : List Char := stripTrail (l.dropWhile isPySpace)

/-- Python str.strip() on String values. -/
def pyStripS (s : String) : String := String.mk (pyStrip s.data)

/-- Floor of a rational as an integer (Int.fdiv is floor division). -/
def qfloor (q : ℚ) : ℤ := q.num.fdiv (q.den : ℤ)

/-- Python round(x, n) modelled on exact rationals: round half to even at n
decimal digits.  (CPython rounds the nearest double; on the exactly
representable values arising in this development the two agree.) -/
def pyRound (q : ℚ) (n : ℕ) : ℚ :=
  let p : ℚ := (10 : ℚ) ^ n
  let m := q * p
  let fl : ℤ := qfloor m
  let frac := m - (fl : ℚ)
  let r : ℤ :=
    if frac < 1/2 then fl
    else if 1/2 < frac then fl + 1
    else if fl % 2 = 0 then fl else fl + 1
  (r : ℚ) / p

/-- Splitting a file's contents into lines, as iterating a Python text file
(and then stripping each line) observes them. -/
def splitLines (s : String) : List String := s.split (· = '\n')

namespace DemoLogger

/-- The character class of demo_logger.get_words:
[A-Za-zÄÖÜäöüßéèêëàâáîïíôöóûüú]. -/
def isLetterChar (c : Char) : Bool :=
  ('A' ≤ c && c ≤ 'Z') || ('a' ≤ c && c ≤ 'z') ||
  c = 'Ä' || c = 'Ö' || c = 'Ü' || c = 'ä' || c = 'ö' || c = 'ü' || c = 'ß' ||
  c = 'é' || c = 'è' || c = 'ê' || c = 'ë' || c = 'à' || c = 'â' || c = 'á' ||
  c = 'î' || c = 'ï' || c = 'í' || c = 'ô' || c = 'ó' || c = 'û' || c = 'ú'

/-- Scanner for re.findall of a character-class-plus pattern: collects the
maximal runs of letters; buf is the (possibly empty) run read so far. -/
def gwA (buf : List Char) : List Char → List (List Char)
  | [] => if buf.isEmpty then [] else [buf]
  | c :: rest =>
    if isLetterChar c then gwA (buf ++ [c]) rest
    else if buf.isEmpty then gwA [] rest
    else buf :: gwA [] rest

/-- demo_logger.get_words: re.findall of maximal runs of (possibly accented)
letters. -/
def get_words (s : String) : List String := (gwA [] s.data).map String.mk

/-- Python regex word character \w (letters, digits, underscore; here ASCII
alphanumerics, underscore and the accented letters that occur in this
repository's domain). -/
def isWordChar (c : Char) : Bool := c.isAlphanum || c = '_' || isLetterChar c

/-- The alternation of the first abbreviation pattern of
demo_logger.split_sentences, in Python's alternation order:
(Mr|Mrs|Ms|Dr|Prof|Jr|Sr|vs|etc|e\.g|i\.e). -/
def ABBREV1 : List (List Char) :=
  [String.data ("Mr"), String.data ("Mrs"), String.data ("Ms"),
   String.data ("Dr"), String.data ("Prof"), String.data ("Jr"),
   String.data ("Sr"), String.data ("vs"), String.data ("etc"),
   String.data ("e.g"), String.data ("i.e")]

/-- The alternation of the second (German) abbreviation pattern:
(z\.B|d\.h|usw|ggfs). -/
def ABBREV2 : List (List Char) :=
  [String.data ("z.B"), String.data ("d.h"), String.data ("usw"),
   String.data ("ggfs")]

/-- Tries to match one alternative alt followed by a literal period and one
whitespace character at the head of cs; returns the remaining input on
success. -/
def matchOne (alt : List Char) (cs : List Char) : Option (List Char) :=
  if alt.isPrefixOf cs then
    match cs.drop alt.length with
    | '.' :: w :: r2 => if isPySpace w then some r2 else none
    | _ => none
  else none

/-- Tries the alternatives in order (Python's alternation semantics) at the
head of cs. -/
def matchAbb : List (List Char) → List Char → Option (List Char × List Char)
  | [], _ => none
  | alt :: alts, cs =>
    match matchOne alt cs with
    | some r2 => some (alt, r2)
    | none => matchAbb alts cs

/-- The replacement text appended after the matched abbreviation by
re.sub(..., r&#92;1_DOT&#32;, ...): the literal characters of the string
"_DOT " (underscore, D, O, T, space). -/
def dotTok : List Char := String.data ("_DOT ")

/-- The four literal placeholder characters "_DOT" — the suffix that, per the
claim, is substituted for a protected abbreviation's period and never
restored. -/
def dotTok4 : List Char := String.data ("_DOT")

/-- pat occurs contiguously inside l. -/
def containsTok (pat l : List Char) : Prop := ∃ s t, l = s ++ pat ++ t

/-- One pass of re.sub(p, r&#92;1_DOT&#32;, text) for an abbreviation pattern
bAlts&#92;.&#92;s: scans left to right; prevW tracks whether the previous
original character is a word character (for the word boundary); fuel bounds
recursion depth (any fuel ≥ the input length is exact). -/
def subAbbrevF (alts : List (List Char)) : ℕ → Bool → List Char → List Char
  | 0, _, cs => cs
  | _ + 1, _, [] => []
  | fuel + 1, prevW, c :: rest =>
    if prevW then c :: subAbbrevF alts fuel (isWordChar c) rest
    else
      match matchAbb alts (c :: rest) with
      | some (alt, r2) => alt ++ dotTok ++ subAbbrevF alts fuel false r2
      | none => c :: subAbbrevF alts fuel (isWordChar c) rest

/-- re.sub for one abbreviation pattern over a whole character list. -/
def subAbbrev (alts : List (List Char)) (cs : List Char) : List Char :=
  subAbbrevF alts cs.length false cs

/-- The sentence-terminator class [.!?] of demo_logger.split_sentences. -/
def isPunct (c : Char) : Bool := c = '.' || c = '!' || c = '?'

/-- Scanner for re.split of the pattern [.!?]+&#92;s+ : eat = currently
consuming the whitespace run of a match, cur = current piece, pend = pending
punctuation run not yet known to be followed by whitespace. -/
def spB : Bool → List Char → List Char → List Char → List (List Char)
  | eat, cur, pend, [] => if eat then [[]] else [cur ++ pend]
  | eat, cur, pend, c :: rest =>
    if eat then
      if isPySpace c then spB true [] [] rest
      else if isPunct c then spB false [] [c] rest
      else spB false [c] [] rest
    else
      if isPunct c then spB false cur (pend ++ [c]) rest
      else if pend.isEmpty then spB false (cur ++ [c]) [] rest
      else if isPySpace c then cur :: spB true [] [] rest
      else spB false (cur ++ pend ++ [c]) [] rest

/-- re.split of [.!?]+&#92;s+ over a character list. -/
def splitPunct (l : List Char) : List (List Char) := spB false [] [] l

/-- demo_logger.split_sentences: protect the two abbreviation lists by
substituting their trailing period-plus-whitespace with the _DOT placeholder,
strip, split on punctuation-run-plus-whitespace, then keep the stripped
non-empty pieces. -/
def split_sentences (text : String) : List String :=
  let t1 := subAbbrev ABBREV1 text.data
  let t2 := subAbbrev ABBREV2 t1
  let parts := splitPunct (pyStrip t2)
  (parts.map (fun p => String.mk (pyStrip p))).filter (· ≠ "")

/-- demo_logger.compute_ari_score:
ARI = 4.71 * (characters/words) + 0.5 * (words/sentences) - 21.43, clamped at
0 and rounded to 2 decimals; 0.0 when there are no sentences or no words. -/
def compute_ari_score (text : String) : ℚ :=
  let sentences := split_sentences text
  let words := get_words text
  if sentences = [] ∨ words = [] then 0
  else
    let char_count : ℚ := ((words.map String.length).sum : ℕ)
    let word_count : ℚ := (words.length : ℕ)
    let sentence_count : ℚ := (sentences.length : ℕ)
    let ari := (471/100 : ℚ) * (char_count / word_count) +
      (1/2 : ℚ) * (word_count / sentence_count) - (2143/100 : ℚ)
    pyRound (max 0 ari) 2

/-- The record of metrics returned by demo_logger.compute_metrics. -/
structure MetricRecord where
  avg_sentence_len_words : ℚ
  pct_sentences_gt20 : ℚ
  ari_score : ℚ
  meaning_cosine : ℚ
deriving DecidableEq, Repr

/-- demo_logger.compute_metrics.  The TF-IDF cosine similarity
(compute_meaning_cosine) calls into scikit-learn, an external dependency that
the spec leaves out of scope; it is passed in as the meaningCosine parameter
(the source returns 0.0 when sklearn is unavailable or the computation
throws). -/
def compute_metrics (meaningCosine : String → String → ℚ)
    (source_text output_text : String) : MetricRecord :=
  let sentences := split_sentences output_text
  let words := get_words output_text
  if sentences = [] ∨ words = [] then ⟨0, 0, 0, 0⟩
  else
    let sent_lengths := sentences.map (fun s => (get_words s).length)
    let avg_sent_len : ℚ := ((sent_lengths.sum : ℕ) : ℚ) / (sentences.length : ℕ)
    let long_sents := (sent_lengths.filter (fun n => 20 < n)).length
    let pct_long : ℚ := ((long_sents : ℕ) : ℚ) / ((sentences.length : ℕ) : ℚ) * 100
    ⟨pyRound avg_sent_len 1, pyRound pct_long 1,
     compute_ari_score output_text, meaningCosine source_text output_text⟩

/-- A value stored under a key of a metrics dict: a number (Python int or
float) or some non-numeric value (the comparison of which with a number
raises TypeError). -/
inductive MVal where
  | num (q : ℚ)
  | nonnum
deriving DecidableEq, Repr

/-- A Python dict from metric names to values, in insertion order. -/
abbrev Metrics := List (String × MVal)

/-- Python dict lookup m[key] returning none for a missing key (a missing key
raises KeyError in the source; the caller turns none into the raised case). -/
def mlookup : Metrics → String → Option MVal
  | [], _ => none
  | (k, v) :: rest, key => if k = key then some v else mlookup rest key

/-- The comparison direction of one guardrail check lambda. -/
inductive Cmp where
  | le
  | ge
deriving DecidableEq, Repr

/-- One entry of demo_logger.GUARDRAILS: its display name and the body of its
check lambda (a lookup of one metric key compared against a bound). -/
structure Guardrail where
  name : String
  key : String
  cmp : Cmp
  bound : ℚ
deriving DecidableEq, Repr

/-- Evaluates one check lambda on a metrics dict: ok of the comparison, or
error () when the lambda raises (KeyError for a missing key, TypeError for a
non-numeric value). -/
def runCheck (g : Guardrail) (m : Metrics) : Except Unit Bool :=
  match mlookup m g.key with
  | some (MVal.num q) =>
    match g.cmp with
    | Cmp.le => Except.ok (decide (q ≤ g.bound))
    | Cmp.ge => Except.ok (decide (g.bound ≤ q))
  | some MVal.nonnum => Except.error ()
  | none => Except.error ()

/-- demo_logger.GUARDRAILS, in dict insertion order. -/
def GUARDRAILS : List Guardrail :=
  [⟨("Short Sentences"), ("avg_sentence_len_words"), Cmp.le, 15⟩,
   ⟨("No Long Sentences"), ("pct_sentences_gt20"), Cmp.le, 10⟩,
   ⟨("Readable (ARI)"), ("ari_score"), Cmp.le, 8⟩,
   ⟨("Preserves Meaning"), ("meaning_cosine"), Cmp.ge, 7/10⟩]

/-- The loop body of demo_logger.evaluate_guardrails over one guardrail:
passing checks bump the passed count, failing checks append the display name,
raising checks append the display name with the error marker. -/
def gStep (m : Metrics) (acc : ℕ × List String) (g : Guardrail) : ℕ × List String :=
  match runCheck g m with
  | Except.ok true => (acc.1 + 1, acc.2)
  | Except.ok false => (acc.1, acc.2 ++ [g.name])
  | Except.error _ => (acc.1, acc.2 ++ [g.name ++ (" (error)")])

/-- demo_logger.evaluate_guardrails: returns
(passed_count, total_count, failed_names). -/
def evaluate_guardrails (m : Metrics) : ℕ × ℕ × List String :=
  let r := GUARDRAILS.foldl (gStep m) (0, [])
  (r.1, GUARDRAILS.length, r.2)

/-- The projection of one persisted demo log entry (a JSON object) onto the
keys read back by compute_aggregate_stats and the reporter's breakdowns;
Option models a possibly missing key. -/
structure LogEntry where
  metrics : Option Metrics
  guardrails_passed : Option ℤ
  guardrails_total : Option ℤ
  guardrails_failed : Option (List String)
  model : Option String
  language : Option String
deriving DecidableEq, Repr

/-- The guardrails_summary dict of a non-empty aggregate report. -/
structure GuardrailsSummary where
  total_passed : ℤ
  total_checks : ℤ
  pass_rate : ℚ
  failure_counts : List (String × ℕ)
deriving DecidableEq, Repr

/-- The report produced by demo_logger.compute_aggregate_stats; none for
guardrails_summary models the empty dict of the zero-entry report. -/
structure AggregateReport where
  total_entries : ℕ
  avg_metrics : List (String × ℚ)
  guardrails_summary : Option GuardrailsSummary
deriving DecidableEq, Repr

/-- failure_counts[failed] = failure_counts.get(failed, 0) + 1 on an
insertion-ordered dict. -/
def bump (acc : List (String × ℕ)) (k : String) : List (String × ℕ) :=
  if acc.any (fun p => p.1 = k) then
    acc.map (fun p => if p.1 = k then (p.1, p.2 + 1) else p)
  else acc ++ [(k, 1)]

/-- Extracts the numeric value of m.get(key) when
isinstance(m.get(key), (int, float)) holds. -/
def numAt (m : Metrics) (key : String) : Option ℚ :=
  match mlookup m key with
  | some (MVal.num q) => some q
  | _ => none

/-- The body of demo_logger.compute_aggregate_stats after loading (lines
277-306): the zero-entry report for an empty list, otherwise the averages of
the numeric metric values keyed by the first entry's metric keys, the summed
guardrail counts, the pass rate, and the failure counts. -/
def aggregate_entries (logs : List LogEntry) : AggregateReport :=
  if logs = [] then ⟨0, [], none⟩
  else
    let metrics_list := logs.filterMap (fun l => l.metrics)
    let avg_metrics :=
      match metrics_list with
      | [] => []
      | m0 :: _ =>
        (m0.map Prod.fst).filterMap (fun key =>
          let values := metrics_list.filterMap (fun m => numAt m key)
          if values = [] then none
          else some (("avg_") ++ key, pyRound (values.sum / ((values.length : ℕ) : ℚ)) 2))
    let total_passed : ℤ := (logs.map (fun l => l.guardrails_passed.getD 0)).sum
    let total_total : ℤ := (logs.map (fun l => l.guardrails_total.getD 0)).sum
    let failure_counts :=
      logs.foldl (fun acc l => (l.guardrails_failed.getD []).foldl bump acc) []
    ⟨logs.length, avg_metrics,
     some ⟨total_passed, total_total,
       (if 0 < total_total then
          pyRound ((total_passed : ℚ) / (total_total : ℚ) * 100) 1
        else 0),
       failure_counts⟩⟩

/-- A Python exception raised by the loaders. -/
inductive PyErr where
  | attributeError
  | jsonDecodeError
deriving DecidableEq, Repr

/-- The argument passed to demo_logger's load_all_logs/compute_aggregate_stats
at their call sites: a Path (with the file's contents, or none when the file
does not exist), or — as the metrics reporter does — an in-memory list of
entries. -/
inductive LogSource where
  | path (content : Option String)
  | entries (logs : List LogEntry)

/-- The line loop of demo_logger.load_all_logs: non-blank lines are parsed
with json.loads, whose failure (modelled by parse returning none) raises and
aborts the remaining lines. -/
def demoLines (parse : String → Option LogEntry) :
    List String → Except PyErr (List LogEntry)
  | [] => Except.ok []
  | line :: rest =>
    if pyStripS line = "" then demoLines parse rest
    else
      match parse (pyStripS line) with
      | some e => (demoLines parse rest).map (fun l => e :: l)
      | none => Except.error PyErr.jsonDecodeError

/-- demo_logger.load_all_logs.  Its first action is log_file.exists(): on a
list argument (as passed by scripts/metrics_reporter.run_report and its
breakdowns) that attribute access raises AttributeError. -/
def load_all_logs (parse : String → Option LogEntry) :
    LogSource → Except PyErr (List LogEntry)
  | LogSource.entries _ => Except.error PyErr.attributeError
  | LogSource.path none => Except.ok []
  | LogSource.path (some content) => demoLines parse (splitLines content)

/-- demo_logger.compute_aggregate_stats: load, then fold the entries into the
report (an exception from loading propagates). -/
def compute_aggregate_stats (parse : String → Option LogEntry)
    (log_file : LogSource) : Except PyErr AggregateReport :=
  (load_all_logs parse log_file).map aggregate_entries

end DemoLogger

namespace RunLogger

/-- The line loop of run_logger.load_all_logs: each non-blank line is parsed
inside try/except json.JSONDecodeError, so a malformed line (parse returning
none) is skipped and loading continues. -/
def apiLines (parse : String → Option DemoLogger.LogEntry) :
    List String → List DemoLogger.LogEntry
  | [] => []
  | line :: rest =>
    if pyStripS line = "" then apiLines parse rest
    else
      match parse (pyStripS line) with
      | some e => e :: apiLines parse rest
      | none => apiLines parse rest

/-- services/api/app/core/run_logger.load_all_logs: returns [] for a missing
file, otherwise parses each non-blank line, skipping malformed ones. -/
def load_all_logs (parse : String → Option DemoLogger.LogEntry)
    (content : Option String) : List DemoLogger.LogEntry :=
  match content with
  | none => []
  | some text => apiLines parse (splitLines text)

end RunLogger

namespace PdfUtils

/-- Step 1 of clean_extracted_text:
re.sub((&#92;w)-&#92;n(&#92;w), &#92;1&#92;2, text) — join a word character,
hyphen, newline, word character into the two word characters.  Scanning is
leftmost and non-overlapping: after a match the scan resumes after the second
word character; when only the second character could still start a match the
scan resumes there. -/
def dehyph : List Char → List Char
  | a :: '-' :: '\n' :: b :: rest =>
    if DemoLogger.isWordChar a && DemoLogger.isWordChar b then
      a :: b :: dehyph rest
    else if DemoLogger.isWordChar b then a :: '-' :: '\n' :: dehyph (b :: rest)
    else a :: '-' :: '\n' :: b :: dehyph rest
  | a :: rest => a :: dehyph rest
  | [] => []

/-- Step 2a: re.sub((?<!&#92;n)&#92;n(?!&#92;n), space, text) — a newline with
no newline neighbour becomes a space; prevNl is whether the previous original
character is a newline. -/
def nlToSpace (prevNl : Bool) : List Char → List Char
  | [] => []
  | c :: rest =>
    if c = '\n' then
      (if !prevNl && rest.head? ≠ some '\n' then ' ' else '\n') ::
        nlToSpace true rest
    else c :: nlToSpace false rest

/-- Step 2b: re.sub(&#92;n&#123;3,&#125;, &#92;n&#92;n, text) as a scanner: k
counts the newlines of the current run already seen; only the first two are
emitted. -/
def cnA (k : ℕ) : List Char → List Char
  | [] => []
  | c :: rest =>
    if c = '\n' then
      if k < 2 then '\n' :: cnA (k + 1) rest else cnA k rest
    else c :: cnA 0 rest

/-- The space-or-tab class [ &#92;t] of step 3a. -/
def isSpTab (c : Char) : Bool := c = ' ' || c = '\t'

/-- Step 3a: re.sub([ &#92;t]+, space, text) as a scanner: b is whether the
scan is inside a space/tab run whose single replacement space was already
emitted. -/
def csA (b : Bool) : List Char → List Char
  | [] => []
  | c :: rest =>
    if isSpTab c then
      (if b then csA true rest else ' ' :: csA true rest)
    else c :: csA false rest

/-- Step 3b: re.sub( +&#92;n, &#92;n, text) as a scanner: p spaces are pending;
they are discarded when a newline follows and flushed otherwise. -/
def dsbA (p : ℕ) : List Char → List Char
  | [] => List.replicate p ' '
  | c :: rest =>
    if c = ' ' then dsbA (p + 1) rest
    else if c = '\n' then '\n' :: dsbA 0 rest
    else List.replicate p ' ' ++ c :: dsbA 0 rest

/-- Step 3c: re.sub(&#92;n +, &#92;n, text) as a scanner: aft is whether the
scan sits right after an emitted newline (possibly with spaces in between,
which are dropped). -/
def dsaA (aft : Bool) : List Char → List Char
  | [] => []
  | c :: rest =>
    if aft && c = ' ' then dsaA true rest
    else if c = '\n' then '\n' :: dsaA true rest
    else c :: dsaA false rest

/-- The whole transform of clean_extracted_text on a character list, in the
source's order: de-hyphenate, newline normalization, newline-run collapse,
space/tab collapse, trailing-space removal, leading-space removal, strip. -/
def cleanL (l : List Char) : List Char :=
  pyStrip (dsaA false (dsbA 0 (csA false (cnA 0 (nlToSpace false (dehyph l))))))

/-- apps/demo/pdf_utils.clean_extracted_text (identical in
services/api/app/core/pdf_extractor.py): empty input returns the empty
string, otherwise the six re.sub passes followed by str.strip(). -/
def clean_extracted_text (s : String) : String :=
  if s = "" then "" else String.mk (cleanL s.data)

end PdfUtils

namespace PdfUtils

/-- No two adjacent characters of the list are a followed by b. -/
def noPair (a b : Char) : List Char → Bool
  | [] => true
  | x :: rest =>
    (match rest.head? with
     | some y => !(x = a && y = b)
     | none => true) && noPair a b rest

/-- Every maximal newline run of the list has length at least two; p is
whether the previous character is a newline. -/
def nlOK (p : Bool) : List Char → Bool
  | [] => true
  | c :: rest =>
    if c = '\n' then (p || rest.head? = some '\n') && nlOK true rest
    else nlOK false rest

/-- Every maximal newline run of the list has length at most two; k is the
length of the newline run read so far. -/
def nT (k : ℕ) : List Char → Bool
  | [] => true
  | c :: rest =>
    if c = '\n' then decide (k < 2) && nT (k + 1) rest
    else nT 0 rest

/-- The list neither starts nor ends with a whitespace character. -/
def endsOK (l : List Char) : Bool :=
  !(l.head?.any isPySpace) && !(l.getLast?.any isPySpace)

/-- The shape invariant of clean_extracted_text output: no tab, no double
space, no space adjacent to a newline, no isolated newline, and no leading or
trailing whitespace. -/
def Inv0 (l : List Char) : Prop :=
  '\t' ∉ l ∧ noPair ' ' ' ' l = true ∧ noPair ' ' '\n' l = true ∧
  noPair '\n' ' ' l = true ∧ nlOK false l = true ∧ endsOK l = true

end PdfUtils

namespace DemoLogger

/-- A concrete well-formed log entry, used as the parse result of the
well-formed JSON line in the concrete loader scenarios. -/
def entryA : LogEntry :=
  ⟨some [(("avg_sentence_len_words"), MVal.num 10),
         (("pct_sentences_gt20"), MVal.num 0),
         (("ari_score"), MVal.num 5),
         (("meaning_cosine"), MVal.num (9/10))],
   some 4, some 4, some [], some ("m1"), some ("de")⟩

/-- A concrete model of json.loads on the lines of the loader scenarios: the
object line parses to entryA, any other line (e.g. the malformed line
"garbage") raises json.JSONDecodeError, modelled as none. -/
def testParse (s : String) : Option LogEntry :=
  if s = ("\x7b\x7d") then some entryA else none

end DemoLogger


section ClaimTheorems

open DemoLogger

/-- Helper for C5: folding the guardrail table adds exactly one unit — a pass
or a failed name — per table entry. -/
theorem gfold_count (m : Metrics) :
    ∀ (table : List Guardrail) (acc : ℕ × List String),
      (table.foldl (gStep m) acc).1 + (table.foldl (gStep m) acc).2.length =
        acc.1 + acc.2.length + table.length := by
  intro table
  induction table with
  | nil => intro acc; simp
  | cons g gs ih =>
    intro acc
    rw [List.foldl_cons, ih]
    cases r : runCheck g m with
    | ok b => cases b <;> simp [gStep, r] <;> omega
    | error e => simp [gStep, r]; omega

/-- Helper for C5: names already accumulated stay in the failed list. -/
theorem gfold_mono (m : Metrics) (x : String) :
    ∀ (table : List Guardrail) (acc : ℕ × List String),
      x ∈ acc.2 → x ∈ (table.foldl (gStep m) acc).2 := by
  intro table
  induction table with
  | nil => intro acc h; simpa using h
  | cons g gs ih =>
    intro acc h
    rw [List.foldl_cons]
    apply ih
    cases r : runCheck g m with
    | ok b =>
      cases b
      · simpa [gStep, r] using Or.inl h
      · simpa [gStep, r] using h
    | error e => simpa [gStep, r] using Or.inl h

/-- Helper for C5: a table entry whose check raises contributes its marked
display name to the failed list. -/
theorem gfold_err_mem (m : Metrics) (g : Guardrail) :
    ∀ (table : List Guardrail) (acc : ℕ × List String),
      g ∈ table → runCheck g m = Except.error () →
      (g.name ++ (" (error)")) ∈ (table.foldl (gStep m) acc).2 := by
  intro table
  induction table with
  | nil => intro acc h; simp at h
  | cons g0 gs ih =>
    intro acc hmem herr
    rw [List.foldl_cons]
    rcases List.mem_cons.mp hmem with heq | htail
    · subst heq
      apply gfold_mono
      simp [gStep, herr]
    · exact ih _ htail herr

/-- C1: the spec says compute_aggregate_stats accepts either a sequence of
LogEntry or a file path, and the metrics reporter passes it the in-memory
list of loaded entries; but for every parse model and every entry list the
demo implementation raises AttributeError, because load_all_logs immediately
calls log_file.exists() on the list. -/
theorem c1_compute_aggregate_stats_rejects_entry_lists :
    ∀ (parse : String → Option LogEntry) (logs : List LogEntry),
      compute_aggregate_stats parse (LogSource.entries logs) =
        Except.error PyErr.attributeError := by
  intro parse logs
  rfl

/-- C2 (counterexample): the demo-logger load_all_logs does not skip a
malformed line — on a file whose first line is malformed and whose second
line is a well-formed entry it raises json.JSONDecodeError, aborting the
load, instead of returning the one well-formed entry. -/
theorem c2_counterexample_demo_load_aborts :
    load_all_logs testParse (LogSource.path (some ("garbage\n\x7b\x7d"))) =
        Except.error PyErr.jsonDecodeError ∧
      load_all_logs testParse (LogSource.path (some ("garbage\n\x7b\x7d"))) ≠
        Except.ok [entryA] := by
  have h1 : load_all_logs testParse
      (LogSource.path (some ("garbage\n\x7b\x7d"))) =
      Except.error PyErr.jsonDecodeError := by
    with_unfolding_all rfl
  refine ⟨h1, ?_⟩
  rw [h1]
  intro h
  exact Except.noConfusion h

/-- C2 (amended): the API-service load_all_logs (run_logger.py) returns
exactly the entries parsed from the well-formed JSON lines — every malformed
or blank line is skipped silently and does not abort the remaining lines;
the demo-logger variant instead raises on the first malformed line. -/
theorem c2_api_load_skips_malformed :
    ∀ (parse : String → Option LogEntry) (content : String),
      RunLogger.load_all_logs parse (some content) =
        (splitLines content).filterMap
          (fun line => if pyStripS line = "" then none else parse (pyStripS line)) := by
  intro parse content
  show RunLogger.apiLines parse (splitLines content) = _
  induction splitLines content with
  | nil => rfl
  | cons line rest ih =>
    by_cases h : pyStripS line = ""
    · simp [RunLogger.apiLines, h, ih]
    · cases hp : parse (pyStripS line) <;>
        simp [RunLogger.apiLines, h, hp, ih]

/-- C3: whenever the sentence split or the word extraction of the output text
is empty, compute_metrics returns the all-zero metric record (and, being a
total function of its inputs, never raises), for every meaning-cosine
capability and every source text. -/
theorem c3_empty_segmentation_zero_record :
    ∀ (mc : String → String → ℚ) (src out : String),
      split_sentences out = [] ∨ get_words out = [] →
      compute_metrics mc src out = ⟨0, 0, 0, 0⟩ := by
  intro mc src out h
  unfold compute_metrics
  rw [if_pos h]

/-- Witness for C3 at the whitespace-only output. -/
theorem c3_witness :
    (split_sentences ("   ") = [] ∨ get_words ("   ") = []) ∧
      compute_metrics (fun _ _ => 0) ("") ("   ") = ⟨0, 0, 0, 0⟩ :=
  ⟨Or.inl (by decide),
   c3_empty_segmentation_zero_record (fun _ _ => 0) ("") ("   ")
     (Or.inl (by decide))⟩

/-- C4: on the record with avg_sentence_len_words=10, pct_sentences_gt20=0,
ari_score=5, meaning_cosine=0.9 the evaluator returns passed=4, total=4 and
an empty failed list; raising avg_sentence_len_words to 20 (all else passing)
returns passed=3 with failed exactly ["Short Sentences"]. -/
theorem c4_guardrail_examples :
    evaluate_guardrails
        [(("avg_sentence_len_words"), MVal.num 10),
         (("pct_sentences_gt20"), MVal.num 0),
         (("ari_score"), MVal.num 5),
         (("meaning_cosine"), MVal.num (9/10))] = (4, 4, []) ∧
      evaluate_guardrails
        [(("avg_sentence_len_words"), MVal.num 20),
         (("pct_sentences_gt20"), MVal.num 0),
         (("ari_score"), MVal.num 5),
         (("meaning_cosine"), MVal.num (9/10))] =
        (3, 4, [("Short Sentences")]) := by
  constructor
  · with_unfolding_all decide
  · with_unfolding_all decide

/-- C5: for every metrics dict, evaluation reports total_count equal to the
full table size, accounts every check as exactly one pass or one failed name
(so one raising check never aborts the remaining checks and nothing
propagates), and every check that raises contributes its display name with
the error marker to the failed list. -/
theorem c5_check_errors_contained :
    ∀ m : Metrics,
      (evaluate_guardrails m).2.1 = GUARDRAILS.length ∧
      (evaluate_guardrails m).1 + (evaluate_guardrails m).2.2.length =
        GUARDRAILS.length ∧
      ∀ g ∈ GUARDRAILS, runCheck g m = Except.error () →
        (g.name ++ (" (error)")) ∈ (evaluate_guardrails m).2.2 := by
  intro m
  refine ⟨rfl, ?_, ?_⟩
  · have h := gfold_count m GUARDRAILS (0, [])
    simpa [evaluate_guardrails] using h
  · intro g hg herr
    exact gfold_err_mem m g GUARDRAILS (0, []) hg herr

/-- Witness for C5 at the empty metrics dict, on which every check raises. -/
theorem c5_witness :
    (runCheck ⟨("Short Sentences"), ("avg_sentence_len_words"), Cmp.le, 15⟩
        [] = Except.error ()) ∧
      ((("Short Sentences") ++ (" (error)")) ∈ (evaluate_guardrails []).2.2) ∧
      (evaluate_guardrails []).2.1 = GUARDRAILS.length := by
  refine ⟨by with_unfolding_all rfl, ?_, (c5_check_errors_contained []).1⟩
  exact (c5_check_errors_contained []).2.2
    ⟨("Short Sentences"), ("avg_sentence_len_words"), Cmp.le, 15⟩
    (by with_unfolding_all decide) (by with_unfolding_all rfl)

/-- C7: the protected abbreviation is not treated as a sentence boundary
while the period after the first sentence is: the example splits into exactly
these 2 sentences, not 3. -/
theorem c7_abbreviation_splits_two_sentences :
    split_sentences ("Dr. Smith went home. He was tired.") =
        [("Dr_DOT Smith went home" : String), ("He was tired." : String)] ∧
      (split_sentences ("Dr. Smith went home. He was tired.")).length = 2 := by
  constructor
  · decide
  · decide

/-- C8: in every report built over a non-empty entry list, pass_rate equals
total_passed / total_checks * 100 under the report's rounding when
total_checks is positive, and the defined default 0 otherwise. -/
theorem c8_pass_rate_invariant :
    ∀ logs : List LogEntry, logs ≠ [] →
      ∃ gs : GuardrailsSummary,
        (aggregate_entries logs).guardrails_summary = some gs ∧
        gs.pass_rate =
          (if 0 < gs.total_checks then
            pyRound ((gs.total_passed : ℚ) / (gs.total_checks : ℚ) * 100) 1
          else 0) := by
  intro logs h
  unfold aggregate_entries
  rw [if_neg h]
  exact ⟨_, rfl, rfl⟩

/-- Witness for C8 at the singleton entry list. -/
theorem c8_witness :
    ∃ gs : GuardrailsSummary,
      (aggregate_entries [entryA]).guardrails_summary = some gs ∧
      gs.pass_rate =
        (if 0 < gs.total_checks then
          pyRound ((gs.total_passed : ℚ) / (gs.total_checks : ℚ) * 100) 1
        else 0) :=
  c8_pass_rate_invariant [entryA] (by simp)

/-- C9 (counterexample): a log file whose only content is a malformed line —
a file with no loadable entries — makes compute_aggregate_stats raise
json.JSONDecodeError instead of returning the empty report. -/
theorem c9_counterexample_malformed_only_file_raises :
    compute_aggregate_stats testParse (LogSource.path (some ("garbage"))) =
        Except.error PyErr.jsonDecodeError ∧
      compute_aggregate_stats testParse (LogSource.path (some ("garbage"))) ≠
        Except.ok ⟨0, [], none⟩ := by
  have h1 : compute_aggregate_stats testParse
      (LogSource.path (some ("garbage"))) =
      Except.error PyErr.jsonDecodeError := by
    with_unfolding_all rfl
  refine ⟨h1, ?_⟩
  rw [h1]
  intro h
  exact Except.noConfusion h

/-- C9 (amended): over every source that loads to zero entries — a missing
log file, or a file all of whose lines are blank — compute_aggregate_stats
returns exactly the report with total_entries 0, empty avg_metrics and empty
guardrails_summary, without raising or dividing by zero; a file whose only
content is malformed lines instead raises during loading. -/
theorem c9_zero_loaded_entries_empty_report :
    ∀ (parse : String → Option LogEntry) (src : LogSource),
      load_all_logs parse src = Except.ok [] →
      compute_aggregate_stats parse src = Except.ok ⟨0, [], none⟩ := by
  intro parse src h
  unfold compute_aggregate_stats
  rw [h]
  rfl

/-- Witness for C9 at the missing log file. -/
theorem c9_witness :
    load_all_logs testParse (LogSource.path none) = Except.ok [] ∧
      compute_aggregate_stats testParse (LogSource.path none) =
        Except.ok ⟨0, [], none⟩ :=
  ⟨rfl, c9_zero_loaded_entries_empty_report testParse (LogSource.path none) rfl⟩

end ClaimTheorems

namespace PdfUtils

/-- Unfolding of noPair over a cons cell. -/
theorem noPair_cons {a b x : Char} {l : List Char} :
    noPair a b (x :: l) = true ↔
      (∀ y, l.head? = some y → ¬(x = a ∧ y = b)) ∧ noPair a b l = true := by
  cases l with
  | nil => simp [noPair]
  | cons y r =>
    simp only [noPair, List.head?_cons, Bool.and_eq_true]
    constructor
    · rintro ⟨h1, h2⟩
      refine ⟨?_, h2⟩
      rintro z hz ⟨ha, hb⟩
      cases hz
      subst ha hb
      simp at h1
    · rintro ⟨h1, h2⟩
      refine ⟨?_, h2⟩
      have := h1 y rfl
      simp only [Bool.not_eq_true']
      by_cases hxa : x = a
      · by_cases hyb : y = b
        · exact absurd ⟨hxa, hyb⟩ this
        · simp [hxa, hyb]
      · simp [hxa]

/-- The tail of a noPair list is noPair. -/
theorem noPair_tail {a b x : Char} {l : List Char}
    (h : noPair a b (x :: l) = true) : noPair a b l = true :=
  (noPair_cons.mp h).2

/-- noPair survives dropping a prefix with dropWhile. -/
theorem noPair_dropWhile {a b : Char} (p : Char → Bool) :
    ∀ l : List Char, noPair a b l = true → noPair a b (l.dropWhile p) = true := by
  intro l
  induction l with
  | nil => intro h; exact h
  | cons x r ih =>
    intro h
    by_cases hp : p x
    · rw [List.dropWhile_cons_of_pos hp]
      exact ih (noPair_tail h)
    · rwa [List.dropWhile_cons_of_neg hp]

/-- stripTrail returns a prefix of its input. -/
theorem stripTrail_pre : ∀ l : List Char, stripTrail l <+: l := by
  intro l
  induction l with
  | nil => simp [stripTrail]
  | cons c r ih =>
    simp only [stripTrail]
    split
    · exact List.nil_prefix
    · exact List.cons_prefix_cons.mpr ⟨rfl, ih⟩

/-- A nonempty stripTrail keeps the head of its input. -/
theorem stripTrail_head {l : List Char} (h : stripTrail l ≠ []) :
    (stripTrail l).head? = l.head? := by
  cases l with
  | nil => simp [stripTrail] at h
  | cons c r =>
    simp only [stripTrail] at h ⊢
    split
    · simp_all
    · simp

/-- The last character of a stripTrail output is not whitespace. -/
theorem stripTrail_last :
    ∀ l : List Char, ∀ c, (stripTrail l).getLast? = some c → isPySpace c = false := by
  intro l
  induction l with
  | nil => intro c h; simp [stripTrail] at h
  | cons x r ih =>
    intro c h
    simp only [stripTrail] at h
    by_cases hcond : ((stripTrail r).isEmpty && isPySpace x) = true
    · rw [if_pos hcond] at h
      simp at h
    · rw [if_neg hcond] at h
      by_cases he : stripTrail r = []
      · rw [he] at h
        have hx : ¬ isPySpace x = true := fun hw => hcond (by simp [he, hw])
        simp at h
        subst h
        simpa using hx
      · obtain ⟨y, t, heq⟩ := List.exists_cons_of_ne_nil he
        rw [heq, List.getLast?_cons_cons] at h
        apply ih
        rw [heq]
        exact h

/-- noPair survives stripTrail (a prefix keeps only adjacent pairs that were
already adjacent). -/
theorem noPair_stripTrail {a b : Char} :
    ∀ l : List Char, noPair a b l = true → noPair a b (stripTrail l) = true := by
  intro l
  induction l with
  | nil => intro h; exact h
  | cons x r ih =>
    intro h
    simp only [stripTrail]
    split
    · simp [noPair]
    · rw [noPair_cons]
      refine ⟨?_, ih (noPair_tail h)⟩
      intro y hy
      have hne : stripTrail r ≠ [] := by
        intro hnil
        rw [hnil] at hy
        simp at hy
      rw [stripTrail_head hne] at hy
      exact (noPair_cons.mp h).1 y hy

/-- noPair survives pyStrip. -/
theorem noPair_pyStrip {a b : Char} (l : List Char)
    (h : noPair a b l = true) : noPair a b (pyStrip l) = true :=
  noPair_stripTrail _ (noPair_dropWhile _ l h)

/-- Characters of a pyStrip output come from the input. -/
theorem mem_pyStrip {c : Char} {l : List Char} (h : c ∈ pyStrip l) : c ∈ l := by
  have h1 : c ∈ l.dropWhile isPySpace :=
    (stripTrail_pre _).sublist.mem h
  exact (List.dropWhile_sublist _).mem h1

/-- The head of a dropWhile output fails the predicate. -/
theorem head_dropWhile {p : Char → Bool} :
    ∀ l : List Char, ∀ c, (l.dropWhile p).head? = some c → p c = false := by
  intro l
  induction l with
  | nil => intro c h; simp at h
  | cons x r ih =>
    intro c h
    by_cases hp : p x
    · rw [List.dropWhile_cons_of_pos hp] at h
      exact ih c h
    · rw [List.dropWhile_cons_of_neg hp] at h
      simp at h
      rw [← h]
      simpa using hp

/-- pyStrip output neither starts nor ends with whitespace. -/
theorem pyStrip_endsOK (l : List Char) : endsOK (pyStrip l) = true := by
  unfold endsOK
  rw [Bool.and_eq_true]
  constructor
  · cases hh : (pyStrip l).head? with
    | none => simp
    | some c =>
      have hne : stripTrail (l.dropWhile isPySpace) ≠ [] := by
        intro hnil
        unfold pyStrip at hh
        rw [hnil] at hh
        simp at hh
      have := stripTrail_head hne
      unfold pyStrip at hh
      rw [this] at hh
      have := head_dropWhile (p := isPySpace) l c hh
      simp [this]
  · cases hh : (pyStrip l).getLast? with
    | none => simp
    | some c =>
      have := stripTrail_last (l.dropWhile isPySpace) c hh
      simp [this]

/-- nlOK does not depend on the state when the head is not a newline. -/
theorem nlOK_state {l : List Char} (h : l.head? ≠ some '\n') (p q : Bool) :
    nlOK p l = nlOK q l := by
  cases l with
  | nil => rfl
  | cons c r =>
    simp only [List.head?_cons, ne_eq, Option.some.injEq] at h
    simp [nlOK, h]

/-- Unfolding nlOK over a leading newline. -/
theorem nlOK_cons_nl (p : Bool) (l : List Char) :
    nlOK p ('\n' :: l) =
      ((p || decide (l.head? = some '\n')) && nlOK true l) := by
  simp [nlOK]

/-- Unfolding nlOK over a leading non-newline. -/
theorem nlOK_cons_other {c : Char} (hc : c ≠ '\n') (p : Bool) (l : List Char) :
    nlOK p (c :: l) = nlOK false l := by
  simp [nlOK, hc]

/-- Peeling one character off a nlOK list. -/
theorem nlOK_tail {p : Bool} {c : Char} {l : List Char}
    (h : nlOK p (c :: l) = true) : nlOK (decide (c = '\n')) l = true := by
  by_cases hc : c = '\n'
  · subst hc
    rw [nlOK_cons_nl, Bool.and_eq_true] at h
    simpa using h.2
  · rw [nlOK_cons_other hc] at h
    simpa [hc] using h

/-- A list without newlines is vacuously nlOK. -/
theorem nlOK_no_nl {l : List Char} (h : '\n' ∉ l) (p : Bool) :
    nlOK p l = true := by
  induction l generalizing p with
  | nil => rfl
  | cons c r ih =>
    have hc : c ≠ '\n' := fun he => h (he ▸ List.mem_cons_self c r)
    simp only [nlOK, if_neg hc]
    exact ih (fun hm => h (List.mem_cons_of_mem _ hm)) false

/-- nlOK in the false state is the stronger state. -/
theorem nlOK_mono {l : List Char} (h : nlOK false l = true) :
    nlOK true l = true := by
  cases l with
  | nil => rfl
  | cons c r =>
    by_cases hc : c = '\n'
    · subst hc
      rw [nlOK_cons_nl, Bool.and_eq_true] at h ⊢
      exact ⟨by simp, h.2⟩
    · rw [nlOK_cons_other hc] at h ⊢
      exact h

/-- nlOK survives dropping leading whitespace. -/
theorem nlOK_dropWhile_ws :
    ∀ l : List Char, ∀ p, nlOK p l = true →
      nlOK false (l.dropWhile isPySpace) = true := by
  intro l
  induction l with
  | nil => intro p h; exact h
  | cons c r ih =>
    intro p h
    by_cases hw : isPySpace c
    · rw [List.dropWhile_cons_of_pos hw]
      exact ih _ (nlOK_tail h)
    · rw [List.dropWhile_cons_of_neg hw]
      have hc : c ≠ '\n' := by
        intro he
        subst he
        simp [isPySpace] at hw
      rw [nlOK_state (by simp [hc]) false p]
      exact h

/-- nlOK survives stripTrail. -/
theorem nlOK_stripTrail :
    ∀ l : List Char, ∀ p, nlOK p l = true → nlOK p (stripTrail l) = true := by
  intro l
  induction l with
  | nil => intro p h; exact h
  | cons c r ih =>
    intro p h
    simp only [stripTrail]
    split
    · rfl
    · rename_i hcond
      by_cases hc : c = '\n'
      · subst hc
        rw [nlOK_cons_nl, Bool.and_eq_true] at h ⊢
        refine ⟨?_, ih true h.2⟩
        rcases Bool.or_eq_true_iff.mp h.1 with hp | hr
        · simp [hp]
        · have hne : stripTrail r ≠ [] := by
            intro hnil
            exact hcond (by simp [hnil, isPySpace])
          rw [Bool.or_eq_true_iff]
          right
          rw [decide_eq_true_iff] at hr ⊢
          rw [stripTrail_head hne]
          exact hr
      · rw [nlOK_cons_other hc] at h ⊢
        exact ih false h

/-- nlOK survives pyStrip. -/
theorem nlOK_pyStrip {l : List Char} {p : Bool} (h : nlOK p l = true) :
    nlOK false (pyStrip l) = true :=
  nlOK_stripTrail _ false (nlOK_dropWhile_ws l p h)

end PdfUtils

namespace PdfUtils

/-- noPair holds vacuously when the second character never occurs. -/
theorem noPair_no_second (a b : Char) :
    ∀ l : List Char, b ∉ l → noPair a b l = true := by
  intro l
  induction l with
  | nil => intro h; rfl
  | cons x r ih =>
    intro h
    rw [noPair_cons]
    refine ⟨?_, ih (fun hm => h (List.mem_cons_of_mem _ hm))⟩
    rintro y hy ⟨ha, hb⟩
    subst hb
    exact h (List.mem_cons_of_mem _ (List.mem_of_mem_head? hy))

/-- The head of a csA output in the in-run state is not a space or tab. -/
theorem csA_head_true :
    ∀ l : List Char, ∀ c, (csA true l).head? = some c → isSpTab c = false := by
  intro l
  induction l with
  | nil => intro c h; simp [csA] at h
  | cons x r ih =>
    intro c h
    by_cases hx : isSpTab x
    · simp only [csA, if_pos hx, if_pos rfl] at h
      exact ih c h
    · simp only [csA, if_neg hx, List.head?_cons, Option.some.injEq] at h
      subst h
      simpa using hx

/-- The head of a csA output in the fresh state. -/
theorem csA_head_false (x : Char) (r : List Char) :
    (csA false (x :: r)).head? = some (if isSpTab x then ' ' else x) := by
  by_cases hx : isSpTab x <;> simp [csA, hx]

/-- csA never emits a tab. -/
theorem csA_notab : ∀ l : List Char, ∀ b, '\t' ∉ csA b l := by
  intro l
  induction l with
  | nil => intro b h; simp [csA] at h
  | cons x r ih =>
    intro b h
    by_cases hx : isSpTab x
    · cases b
      · simp only [csA, if_pos hx] at h
        rw [if_neg (by simp)] at h
        rcases List.mem_cons.mp h with he | hm
        · simp at he
        · exact ih true hm
      · simp only [csA, if_pos hx, if_pos rfl] at h
        exact ih true h
    · simp only [csA, if_neg hx] at h
      rcases List.mem_cons.mp h with he | hm
      · subst he
        exact hx (by simp [isSpTab])
      · exact ih false hm

/-- csA output never has two adjacent spaces. -/
theorem csA_noDouble : ∀ l : List Char, ∀ b, noPair ' ' ' ' (csA b l) = true := by
  intro l
  induction l with
  | nil => intro b; rfl
  | cons x r ih =>
    intro b
    by_cases hx : isSpTab x
    · cases b
      · simp only [csA, if_pos hx]
        rw [if_neg (by simp)]
        rw [noPair_cons]
        refine ⟨?_, ih true⟩
        rintro y hy ⟨_, hb⟩
        subst hb
        have := csA_head_true r ' ' hy
        simp [isSpTab] at this
      · simp only [csA, if_pos hx, if_pos rfl]
        exact ih true
    · simp only [csA, if_neg hx]
      rw [noPair_cons]
      refine ⟨?_, ih false⟩
      rintro y hy ⟨ha, _⟩
      subst ha
      simp [isSpTab] at hx

/-- csA preserves the newline-run invariant (its state never coincides with a
pending newline obligation). -/
theorem csA_nlOK :
    ∀ l : List Char, ∀ b p, (b = true → p = false) → nlOK p l = true →
      nlOK p (csA b l) = true := by
  intro l
  induction l with
  | nil => intro b p _ h; cases b <;> exact h
  | cons x r ih =>
    intro b p hbp h
    by_cases hx : isSpTab x
    · have hxn : x ≠ '\n' := by
        rintro rfl
        simp [isSpTab] at hx
      rw [nlOK_cons_other hxn] at h
      cases b
      · simp only [csA, if_pos hx]
        rw [if_neg (by simp)]
        rw [nlOK_cons_other (by simp) p]
        exact ih true false (fun _ => rfl) h
      · simp only [csA, if_pos hx, if_pos rfl, if_true]
        rw [hbp rfl]
        exact ih true false (fun _ => rfl) h
    · simp only [csA, if_neg hx]
      by_cases hxn : x = '\n'
      · subst hxn
        rw [nlOK_cons_nl, Bool.and_eq_true] at h ⊢
        refine ⟨?_, ih false true (by simp) h.2⟩
        rcases Bool.or_eq_true_iff.mp h.1 with hp | hr
        · simp [hp]
        · rw [decide_eq_true_iff] at hr
          cases r with
          | nil => simp at hr
          | cons y t =>
            simp only [List.head?_cons, Option.some.injEq] at hr
            subst hr
            rw [csA_head_false]
            simp [isSpTab]
      · rw [nlOK_cons_other hxn] at h ⊢
        exact ih false false (by simp) h

/-- csA is the identity on tab-free, double-space-free input. -/
theorem csA_id :
    ∀ l : List Char, ∀ b, '\t' ∉ l → noPair ' ' ' ' l = true →
      (b = true → l.head? ≠ some ' ') → csA b l = l := by
  intro l
  induction l with
  | nil => intro b _ _ _; cases b <;> rfl
  | cons x r ih =>
    intro b ht hnp hb
    by_cases hx : isSpTab x
    · have hxs : x = ' ' := by
        rcases Bool.or_eq_true_iff.mp hx with h1 | h2
        · exact of_decide_eq_true h1
        · exact absurd (of_decide_eq_true h2 ▸ List.mem_cons_self _ _) ht
      subst hxs
      cases b
      · simp only [csA, if_pos hx]
        rw [if_neg (by simp)]
        congr 1
        refine ih true (fun hm => ht (List.mem_cons_of_mem _ hm))
          (noPair_tail hnp) ?_
        intro _ hr
        exact (noPair_cons.mp hnp).1 ' ' hr ⟨rfl, rfl⟩
      · exact absurd rfl (hb rfl)
    · simp only [csA, if_neg hx]
      congr 1
      exact ih false (fun hm => ht (List.mem_cons_of_mem _ hm))
        (noPair_tail hnp) (by simp)

/-- dsbA never puts a space directly before a newline. -/
theorem noPair_flush (n : ℕ) (x : Char) (t : List Char) (hx : x ≠ '\n')
    (h : noPair ' ' '\n' (x :: t) = true) :
    noPair ' ' '\n' (List.replicate n ' ' ++ x :: t) = true := by
  induction n with
  | zero => simpa using h
  | succ m ih =>
    rw [List.replicate_succ, List.cons_append, noPair_cons]
    refine ⟨?_, ih⟩
    rintro y hy ⟨_, hb⟩
    subst hb
    cases m with
    | zero => simp at hy; exact hx hy
    | succ k =>
      rw [List.replicate_succ, List.cons_append] at hy
      simp at hy

/-- The dsbA output has no space directly before a newline. -/
theorem dsbA_noSpNl : ∀ l : List Char, ∀ p, noPair ' ' '\n' (dsbA p l) = true := by
  intro l
  induction l with
  | nil =>
    intro p
    simp only [dsbA]
    exact noPair_no_second ' ' '\n' _ (by simp)
  | cons x r ih =>
    intro p
    by_cases hs : x = ' '
    · subst hs
      simp only [dsbA, if_pos rfl]
      exact ih (p + 1)
    · by_cases hn : x = '\n'
      · subst hn
        simp only [dsbA]
        rw [if_neg (by simp)]
        simp only [if_pos rfl, if_true]
        rw [noPair_cons]
        refine ⟨?_, ih 0⟩
        rintro y _ ⟨ha, _⟩
        simp at ha
      · simp only [dsbA, if_neg hs, if_neg hn]
        apply noPair_flush p x _ hn
        rw [noPair_cons]
        refine ⟨?_, ih 0⟩
        rintro y _ ⟨ha, _⟩
        exact hs ha

/-- The dsbA output keeps spaces single when the input has them single. -/
theorem dsbA_noDouble :
    ∀ l : List Char, ∀ p, p ≤ 1 → (p = 1 → l.head? ≠ some ' ') →
      noPair ' ' ' ' l = true → noPair ' ' ' ' (dsbA p l) = true := by
  intro l
  induction l with
  | nil =>
    intro p hp _ _
    interval_cases p
    · rfl
    · rfl
  | cons x r ih =>
    intro p hp hp1 hnp
    by_cases hs : x = ' '
    · subst hs
      have hp0 : p = 0 := by
        rcases Nat.lt_or_ge p 1 with h1 | h1
        · omega
        · exfalso
          exact hp1 (by omega) (by simp)
      subst hp0
      simp only [dsbA, if_pos rfl]
      refine ih 1 (by omega) ?_ (noPair_tail hnp)
      intro _ hr
      exact (noPair_cons.mp hnp).1 ' ' hr ⟨rfl, rfl⟩
    · by_cases hn : x = '\n'
      · subst hn
        simp only [dsbA]
        rw [if_neg (by simp)]
        simp only [if_pos rfl, if_true]
        rw [noPair_cons]
        refine ⟨?_, ih 0 (by omega) (by simp) (noPair_tail hnp)⟩
        rintro y _ ⟨ha, _⟩
        simp at ha
      · simp only [dsbA, if_neg hs, if_neg hn]
        have hrec : noPair ' ' ' ' (x :: dsbA 0 r) = true := by
          rw [noPair_cons]
          refine ⟨?_, ih 0 (by omega) (by simp) (noPair_tail hnp)⟩
          rintro y _ ⟨ha, _⟩
          exact hs ha
        interval_cases p
        · simpa using hrec
        · simp only [List.replicate_succ, List.replicate_zero,
            List.cons_append, List.nil_append]
          rw [noPair_cons]
          refine ⟨?_, hrec⟩
          rintro y hy ⟨_, hb⟩
          simp at hy
          subst hb
          exact hs hy

/-- dsbA emits no tab when the input has none. -/
theorem dsbA_notab :
    ∀ l : List Char, ∀ p, '\t' ∉ l → '\t' ∉ dsbA p l := by
  intro l
  induction l with
  | nil =>
    intro p _ h
    simp only [dsbA] at h
    rw [List.mem_replicate] at h
    simp at h
  | cons x r ih =>
    intro p ht h
    by_cases hs : x = ' '
    · subst hs
      simp only [dsbA, if_pos rfl] at h
      exact ih (p + 1) (fun hm => ht (List.mem_cons_of_mem _ hm)) h
    · by_cases hn : x = '\n'
      · subst hn
        simp only [dsbA] at h
        rw [if_neg (by simp)] at h
        simp only [if_pos rfl, if_true] at h
        rcases List.mem_cons.mp h with he | hm
        · simp at he
        · exact ih 0 (fun hm => ht (List.mem_cons_of_mem _ hm)) hm
      · simp only [dsbA, if_neg hs, if_neg hn] at h
        rcases List.mem_append.mp h with hm | hm
        · rw [List.mem_replicate] at hm
          simp at hm
        · rcases List.mem_cons.mp hm with he | hm2
          · exact ht (he ▸ List.mem_cons_self _ _)
          · exact ih 0 (fun hm3 => ht (List.mem_cons_of_mem _ hm3)) hm2

/-- Space runs are transparent to nlOK. -/
theorem nlOK_replicate_sp (n : ℕ) (t : List Char) (hn : 0 < n) :
    ∀ q, nlOK q (List.replicate n ' ' ++ t) = nlOK false t := by
  induction n with
  | zero => omega
  | succ m ih =>
    intro q
    rw [List.replicate_succ, List.cons_append, nlOK_cons_other (by simp)]
    cases m with
    | zero => simp
    | succ k => rw [ih (by omega) false]

/-- dsbA preserves the newline-run invariant: p pending spaces imply the
input state qi is fresh, and an input newline state forces a matching output
newline state with no pending spaces. -/
theorem dsbA_nlOK :
    ∀ l : List Char, ∀ p q qi, (0 < p → qi = false) →
      (qi = true → q = true ∧ p = 0) → nlOK qi l = true →
      nlOK q (dsbA p l) = true := by
  intro l
  induction l with
  | nil =>
    intro p q qi _ _ _
    simp only [dsbA]
    exact nlOK_no_nl (by simp [List.mem_replicate]) q
  | cons x r ih =>
    intro p q qi hpi hqi h
    by_cases hs : x = ' '
    · subst hs
      rw [nlOK_cons_other (by simp)] at h
      simp only [dsbA, if_pos rfl]
      exact ih (p + 1) q false (fun _ => rfl) (by simp) h
    · by_cases hn : x = '\n'
      · subst hn
        rw [nlOK_cons_nl, Bool.and_eq_true] at h
        simp only [dsbA]
        rw [if_neg (by simp)]
        simp only [if_pos rfl, if_true]
        rw [nlOK_cons_nl, Bool.and_eq_true]
        constructor
        · rcases Bool.or_eq_true_iff.mp h.1 with hq | hr
          · rcases hqi hq with ⟨hq2, _⟩
            simp [hq2]
          · rw [decide_eq_true_iff] at hr
            cases r with
            | nil => simp at hr
            | cons y t =>
              simp only [List.head?_cons, Option.some.injEq] at hr
              subst hr
              simp only [dsbA]
              rw [if_neg (by simp)]
              simp only [if_pos rfl, if_true]
              simp
        · exact ih 0 true true (by omega) (fun _ => ⟨rfl, rfl⟩) h.2
      · rw [nlOK_cons_other hn] at h
        simp only [dsbA, if_neg hs, if_neg hn]
        have hrec : nlOK false (x :: dsbA 0 r) = true := by
          rw [nlOK_cons_other hn]
          exact ih 0 false false (by omega) (by simp) h
        cases Nat.eq_zero_or_pos p with
        | inl hp0 =>
          subst hp0
          simp only [List.replicate_zero, List.nil_append]
          rw [nlOK_cons_other hn]
          rw [nlOK_cons_other hn] at hrec
          exact hrec
        | inr hpos => rw [nlOK_replicate_sp p _ hpos q]; exact hrec

/-- dsbA is the identity (up to the pending flush) when no space precedes a
newline. -/
theorem dsbA_eq :
    ∀ l : List Char, ∀ p, noPair ' ' '\n' l = true →
      (0 < p → l.head? ≠ some '\n') →
      dsbA p l = List.replicate p ' ' ++ l := by
  intro l
  induction l with
  | nil => intro p _ _; simp [dsbA]
  | cons x r ih =>
    intro p hnp hp
    by_cases hs : x = ' '
    · subst hs
      simp only [dsbA, if_pos rfl]
      rw [ih (p + 1) (noPair_tail hnp) ?_]
      · rw [List.replicate_succ', List.append_assoc]
        simp
      · intro _ hr
        exact (noPair_cons.mp hnp).1 '\n' hr ⟨rfl, rfl⟩
    · by_cases hn : x = '\n'
      · subst hn
        have hp0 : p = 0 := by
          by_contra hne
          exact hp (by omega) rfl
        subst hp0
        simp only [dsbA]
        rw [if_neg (by simp)]
        simp only [if_pos rfl, if_true]
        rw [ih 0 (noPair_tail hnp) (by omega)]
        simp
      · simp only [dsbA, if_neg hs, if_neg hn]
        rw [ih 0 (noPair_tail hnp) (by omega)]
        simp

/-- Unfolding dsaA: a space in the eating state is dropped. -/
theorem dsaA_cons_sp_true (r : List Char) : dsaA true (' ' :: r) = dsaA true r := rfl

/-- Unfolding dsaA: a space in the fresh state is kept. -/
theorem dsaA_cons_sp_false (r : List Char) :
    dsaA false (' ' :: r) = ' ' :: dsaA false r := rfl

/-- Unfolding dsaA: a newline is kept and enters the eating state. -/
theorem dsaA_cons_nl (b : Bool) (r : List Char) :
    dsaA b ('\n' :: r) = '\n' :: dsaA true r := by
  cases b <;> rfl

/-- Unfolding dsaA: any other character is kept and resets the state. -/
theorem dsaA_cons_other {x : Char} (hs : x ≠ ' ') (hn : x ≠ '\n')
    (b : Bool) (r : List Char) : dsaA b (x :: r) = x :: dsaA false r := by
  cases b
  · simp [dsaA, hn]
  · simp [dsaA, hs, hn]

/-- dsaA in the fresh state keeps the head of its input. -/
theorem dsaA_head_false (l : List Char) : (dsaA false l).head? = l.head? := by
  cases l with
  | nil => rfl
  | cons x r =>
    by_cases hn : x = '\n'
    · subst hn
      rw [dsaA_cons_nl]
      rfl
    · by_cases hs : x = ' '
      · subst hs
        rw [dsaA_cons_sp_false]
        rfl
      · rw [dsaA_cons_other hs hn]
        rfl

/-- The head of a dsaA output in the eating state is not a space. -/
theorem dsaA_head_true :
    ∀ l : List Char, ∀ c, (dsaA true l).head? = some c → c ≠ ' ' := by
  intro l
  induction l with
  | nil => intro c h; simp [dsaA] at h
  | cons x r ih =>
    intro c h
    by_cases hs : x = ' '
    · subst hs
      rw [dsaA_cons_sp_true] at h
      exact ih c h
    · by_cases hn : x = '\n'
      · subst hn
        rw [dsaA_cons_nl] at h
        simp at h
        subst h
        simp
      · rw [dsaA_cons_other hs hn] at h
        simp at h
        subst h
        exact hs

/-- Characters of a dsaA output come from the input. -/
theorem dsaA_mem :
    ∀ l : List Char, ∀ b c, c ∈ dsaA b l → c ∈ l := by
  intro l
  induction l with
  | nil => intro b c h; simp [dsaA] at h
  | cons x r ih =>
    intro b c h
    by_cases hs : x = ' '
    · subst hs
      cases b
      · rw [dsaA_cons_sp_false] at h
        rcases List.mem_cons.mp h with he | hm
        · exact he ▸ List.mem_cons_self _ _
        · exact List.mem_cons_of_mem _ (ih false c hm)
      · rw [dsaA_cons_sp_true] at h
        exact List.mem_cons_of_mem _ (ih true c h)
    · by_cases hn : x = '\n'
      · subst hn
        rw [dsaA_cons_nl] at h
        rcases List.mem_cons.mp h with he | hm
        · exact he ▸ List.mem_cons_self _ _
        · exact List.mem_cons_of_mem _ (ih true c hm)
      · rw [dsaA_cons_other hs hn] at h
        rcases List.mem_cons.mp h with he | hm
        · exact he ▸ List.mem_cons_self _ _
        · exact List.mem_cons_of_mem _ (ih false c hm)

/-- The dsaA output has no space directly after a newline. -/
theorem dsaA_noNlSp :
    ∀ l : List Char, ∀ b, noPair '\n' ' ' (dsaA b l) = true := by
  intro l
  induction l with
  | nil => intro b; cases b <;> rfl
  | cons x r ih =>
    intro b
    by_cases hs : x = ' '
    · subst hs
      cases b
      · rw [dsaA_cons_sp_false, noPair_cons]
        refine ⟨?_, ih false⟩
        rintro y _ ⟨ha, _⟩
        simp at ha
      · rw [dsaA_cons_sp_true]
        exact ih true
    · by_cases hn : x = '\n'
      · subst hn
        rw [dsaA_cons_nl, noPair_cons]
        refine ⟨?_, ih true⟩
        rintro y hy ⟨_, hb2⟩
        subst hb2
        exact dsaA_head_true r ' ' hy rfl
      · rw [dsaA_cons_other hs hn, noPair_cons]
        refine ⟨?_, ih false⟩
        rintro y _ ⟨ha, _⟩
        exact hn ha

/-- dsaA preserves the absence of double spaces. -/
theorem dsaA_noDouble :
    ∀ l : List Char, ∀ b, noPair ' ' ' ' l = true →
      noPair ' ' ' ' (dsaA b l) = true := by
  intro l
  induction l with
  | nil => intro b _; cases b <;> rfl
  | cons x r ih =>
    intro b hnp
    by_cases hs : x = ' '
    · subst hs
      cases b
      · rw [dsaA_cons_sp_false, noPair_cons]
        refine ⟨?_, ih false (noPair_tail hnp)⟩
        rintro y hy ⟨_, hb2⟩
        subst hb2
        rw [dsaA_head_false] at hy
        exact (noPair_cons.mp hnp).1 ' ' hy ⟨rfl, rfl⟩
      · rw [dsaA_cons_sp_true]
        exact ih true (noPair_tail hnp)
    · by_cases hn : x = '\n'
      · subst hn
        rw [dsaA_cons_nl, noPair_cons]
        refine ⟨?_, ih true (noPair_tail hnp)⟩
        rintro y _ ⟨ha, _⟩
        simp at ha
      · rw [dsaA_cons_other hs hn, noPair_cons]
        refine ⟨?_, ih false (noPair_tail hnp)⟩
        rintro y _ ⟨ha, _⟩
        exact hs ha

/-- dsaA preserves the absence of a space directly before a newline. -/
theorem dsaA_noSpNl :
    ∀ l : List Char, ∀ b, noPair ' ' '\n' l = true →
      noPair ' ' '\n' (dsaA b l) = true := by
  intro l
  induction l with
  | nil => intro b _; cases b <;> rfl
  | cons x r ih =>
    intro b hnp
    by_cases hs : x = ' '
    · subst hs
      cases b
      · rw [dsaA_cons_sp_false, noPair_cons]
        refine ⟨?_, ih false (noPair_tail hnp)⟩
        rintro y hy ⟨_, hb2⟩
        subst hb2
        rw [dsaA_head_false] at hy
        exact (noPair_cons.mp hnp).1 '\n' hy ⟨rfl, rfl⟩
      · rw [dsaA_cons_sp_true]
        exact ih true (noPair_tail hnp)
    · by_cases hn : x = '\n'
      · subst hn
        rw [dsaA_cons_nl, noPair_cons]
        refine ⟨?_, ih true (noPair_tail hnp)⟩
        rintro y _ ⟨ha, _⟩
        simp at ha
      · rw [dsaA_cons_other hs hn, noPair_cons]
        refine ⟨?_, ih false (noPair_tail hnp)⟩
        rintro y _ ⟨ha, _⟩
        exact hs ha

/-- dsaA preserves the newline-run invariant: an input newline state forces
the eating state. -/
theorem dsaA_nlOK :
    ∀ l : List Char, ∀ b qi, (qi = true → b = true) → nlOK qi l = true →
      nlOK b (dsaA b l) = true := by
  intro l
  induction l with
  | nil => intro b _ _ _; cases b <;> rfl
  | cons x r ih =>
    intro b qi hqb h
    by_cases hs : x = ' '
    · subst hs
      rw [nlOK_cons_other (by simp)] at h
      cases b
      · rw [dsaA_cons_sp_false, nlOK_cons_other (by simp)]
        exact ih false false (by simp) h
      · rw [dsaA_cons_sp_true]
        exact ih true false (by simp) h
    · by_cases hn : x = '\n'
      · subst hn
        rw [nlOK_cons_nl, Bool.and_eq_true] at h
        rw [dsaA_cons_nl, nlOK_cons_nl, Bool.and_eq_true]
        constructor
        · rcases Bool.or_eq_true_iff.mp h.1 with hq | hr
          · simp [hqb hq]
          · rw [decide_eq_true_iff] at hr
            cases r with
            | nil => simp at hr
            | cons y t =>
              simp only [List.head?_cons, Option.some.injEq] at hr
              subst hr
              rw [dsaA_cons_nl]
              simp
        · have h2 := ih true true (fun _ => rfl) h.2
          simp [h2]
      · rw [nlOK_cons_other hn] at h
        rw [dsaA_cons_other hs hn, nlOK_cons_other hn]
        exact ih false false (by simp) h

/-- dsaA is the identity when no space follows a newline. -/
theorem dsaA_eq :
    ∀ l : List Char, ∀ b, noPair '\n' ' ' l = true →
      (b = true → l.head? ≠ some ' ') → dsaA b l = l := by
  intro l
  induction l with
  | nil => intro b _ _; cases b <;> rfl
  | cons x r ih =>
    intro b hnp hb
    by_cases hs : x = ' '
    · subst hs
      cases b
      · rw [dsaA_cons_sp_false]
        congr 1
        exact ih false (noPair_tail hnp) (by simp)
      · exact absurd rfl (hb rfl)
    · by_cases hn : x = '\n'
      · subst hn
        rw [dsaA_cons_nl]
        congr 1
        refine ih true (noPair_tail hnp) ?_
        intro _ hr
        exact (noPair_cons.mp hnp).1 ' ' hr ⟨rfl, rfl⟩
      · rw [dsaA_cons_other hs hn]
        congr 1
        exact ih false (noPair_tail hnp) (by simp)

/-- Unfolding cnA below the cap. -/
theorem cnA_cons_nl_lt {k : ℕ} (h : k < 2) (r : List Char) :
    cnA k ('\n' :: r) = '\n' :: cnA (k + 1) r := by
  simp [cnA, h]

/-- Unfolding cnA at or above the cap. -/
theorem cnA_cons_nl_ge {k : ℕ} (h : ¬ k < 2) (r : List Char) :
    cnA k ('\n' :: r) = cnA k r := by
  simp [cnA, h]

/-- Unfolding cnA on a non-newline. -/
theorem cnA_cons_other {c : Char} (hc : c ≠ '\n') (k : ℕ) (r : List Char) :
    cnA k (c :: r) = c :: cnA 0 r := by
  simp [cnA, hc]

/-- Unfolding nT over a newline. -/
theorem nT_cons_nl (k : ℕ) (r : List Char) :
    nT k ('\n' :: r) = (decide (k < 2) && nT (k + 1) r) := by
  simp [nT]

/-- Unfolding nT over a non-newline. -/
theorem nT_cons_other {c : Char} (hc : c ≠ '\n') (k : ℕ) (r : List Char) :
    nT k (c :: r) = nT 0 r := by
  simp [nT, hc]

/-- A fresh cnA keeps the head of its input. -/
theorem cnA_head0 (l : List Char) : (cnA 0 l).head? = l.head? := by
  cases l with
  | nil => rfl
  | cons x r =>
    by_cases hn : x = '\n'
    · subst hn
      rw [cnA_cons_nl_lt (by omega)]
      rfl
    · rw [cnA_cons_other hn]
      rfl

/-- Characters of a cnA output come from the input. -/
theorem cnA_mem : ∀ l : List Char, ∀ k c, c ∈ cnA k l → c ∈ l := by
  intro l
  induction l with
  | nil => intro k c h; simp [cnA] at h
  | cons x r ih =>
    intro k c h
    by_cases hn : x = '\n'
    · subst hn
      by_cases hk : k < 2
      · rw [cnA_cons_nl_lt hk] at h
        rcases List.mem_cons.mp h with he | hm
        · exact he ▸ List.mem_cons_self _ _
        · exact List.mem_cons_of_mem _ (ih (k + 1) c hm)
      · rw [cnA_cons_nl_ge hk] at h
        exact List.mem_cons_of_mem _ (ih k c h)
    · rw [cnA_cons_other hn] at h
      rcases List.mem_cons.mp h with he | hm
      · exact he ▸ List.mem_cons_self _ _
      · exact List.mem_cons_of_mem _ (ih 0 c hm)

/-- Inside a newline run, the head of the cnA output is never a space. -/
theorem cnA_head_ne_sp :
    ∀ l : List Char, ∀ k, 1 ≤ k → noPair '\n' ' ' l = true →
      l.head? ≠ some ' ' → (cnA k l).head? ≠ some ' ' := by
  intro l
  induction l with
  | nil => intro k _ _ _; simp [cnA]
  | cons x r ih =>
    intro k hk hnp hh
    by_cases hn : x = '\n'
    · subst hn
      by_cases hlt : k < 2
      · rw [cnA_cons_nl_lt hlt]
        simp
      · rw [cnA_cons_nl_ge hlt]
        refine ih k hk (noPair_tail hnp) ?_
        intro hr
        exact (noPair_cons.mp hnp).1 ' ' hr ⟨rfl, rfl⟩
    · rw [cnA_cons_other hn]
      simpa using hh

/-- cnA preserves the absence of double spaces. -/
theorem cnA_noDouble :
    ∀ l : List Char, ∀ k, noPair ' ' ' ' l = true →
      noPair ' ' ' ' (cnA k l) = true := by
  intro l
  induction l with
  | nil => intro k _; rfl
  | cons x r ih =>
    intro k hnp
    by_cases hn : x = '\n'
    · subst hn
      by_cases hk : k < 2
      · rw [cnA_cons_nl_lt hk, noPair_cons]
        refine ⟨?_, ih (k + 1) (noPair_tail hnp)⟩
        rintro y _ ⟨ha, _⟩
        simp at ha
      · rw [cnA_cons_nl_ge hk]
        exact ih k (noPair_tail hnp)
    · rw [cnA_cons_other hn, noPair_cons]
      refine ⟨?_, ih 0 (noPair_tail hnp)⟩
      rintro y hy ⟨ha, hb⟩
      subst ha hb
      rw [cnA_head0] at hy
      exact (noPair_cons.mp hnp).1 ' ' hy ⟨rfl, rfl⟩

/-- cnA preserves the absence of a space directly before a newline. -/
theorem cnA_noSpNl :
    ∀ l : List Char, ∀ k, noPair ' ' '\n' l = true →
      noPair ' ' '\n' (cnA k l) = true := by
  intro l
  induction l with
  | nil => intro k _; rfl
  | cons x r ih =>
    intro k hnp
    by_cases hn : x = '\n'
    · subst hn
      by_cases hk : k < 2
      · rw [cnA_cons_nl_lt hk, noPair_cons]
        refine ⟨?_, ih (k + 1) (noPair_tail hnp)⟩
        rintro y _ ⟨ha, _⟩
        simp at ha
      · rw [cnA_cons_nl_ge hk]
        exact ih k (noPair_tail hnp)
    · rw [cnA_cons_other hn, noPair_cons]
      refine ⟨?_, ih 0 (noPair_tail hnp)⟩
      rintro y hy ⟨ha, hb⟩
      subst ha hb
      rw [cnA_head0] at hy
      exact (noPair_cons.mp hnp).1 '\n' hy ⟨rfl, rfl⟩

/-- cnA preserves the absence of a space directly after a newline. -/
theorem cnA_noNlSp :
    ∀ l : List Char, ∀ k, noPair '\n' ' ' l = true →
      (1 ≤ k → l.head? ≠ some ' ') → noPair '\n' ' ' (cnA k l) = true := by
  intro l
  induction l with
  | nil => intro k _ _; rfl
  | cons x r ih =>
    intro k hnp hh
    by_cases hn : x = '\n'
    · subst hn
      have hr : r.head? ≠ some ' ' := by
        intro hr2
        exact (noPair_cons.mp hnp).1 ' ' hr2 ⟨rfl, rfl⟩
      by_cases hk : k < 2
      · rw [cnA_cons_nl_lt hk, noPair_cons]
        refine ⟨?_, ih (k + 1) (noPair_tail hnp) (fun _ => hr)⟩
        rintro y hy ⟨_, hb⟩
        subst hb
        exact cnA_head_ne_sp r (k + 1) (by omega) (noPair_tail hnp) hr hy
      · rw [cnA_cons_nl_ge hk]
        exact ih k (noPair_tail hnp) (fun _ => hr)
    · rw [cnA_cons_other hn, noPair_cons]
      refine ⟨?_, ih 0 (noPair_tail hnp) (by omega)⟩
      rintro y _ ⟨ha, _⟩
      exact hn ha

/-- cnA preserves the newline-run lower bound. -/
theorem cnA_nlOK :
    ∀ l : List Char, ∀ k, nlOK (decide (1 ≤ k)) l = true →
      nlOK (decide (1 ≤ k)) (cnA k l) = true := by
  intro l
  induction l with
  | nil => intro k _; simp [cnA, nlOK]
  | cons x r ih =>
    intro k h
    by_cases hn : x = '\n'
    · subst hn
      rw [nlOK_cons_nl, Bool.and_eq_true] at h
      by_cases hk : k < 2
      · rw [cnA_cons_nl_lt hk, nlOK_cons_nl, Bool.and_eq_true]
        constructor
        · rcases Bool.or_eq_true_iff.mp h.1 with hq | hr
          · simp [hq]
          · rw [decide_eq_true_iff] at hr
            by_cases h1k : 1 ≤ k
            · simp [h1k]
            · have hk0 : k = 0 := by omega
              subst hk0
              cases r with
              | nil => simp at hr
              | cons y t =>
                simp only [List.head?_cons, Option.some.injEq] at hr
                subst hr
                rw [cnA_cons_nl_lt (by omega)]
                simp
        · have h2 := ih (k + 1) (by simpa using h.2)
          simpa using h2
      · rw [cnA_cons_nl_ge hk]
        have hdk : decide (1 ≤ k) = true := by
          simp
          omega
        rw [hdk]
        have h2 := ih k (by rw [hdk]; exact h.2)
        rwa [hdk] at h2
    · rw [nlOK_cons_other hn] at h
      rw [cnA_cons_other hn, nlOK_cons_other hn]
      have h2 := ih 0 (by simpa using h)
      simpa using h2

/-- cnA caps every newline run at two. -/
theorem cnA_nT : ∀ l : List Char, ∀ k, nT (min k 2) (cnA k l) = true := by
  intro l
  induction l with
  | nil => intro k; simp [cnA, nT]
  | cons x r ih =>
    intro k
    by_cases hn : x = '\n'
    · subst hn
      by_cases hk : k < 2
      · rw [cnA_cons_nl_lt hk, nT_cons_nl, Bool.and_eq_true]
        constructor
        · simp
          omega
        · have h2 := ih (k + 1)
          have : min k 2 + 1 = min (k + 1) 2 := by
            rw [Nat.min_eq_left (by omega : k ≤ 2),
              Nat.min_eq_left (by omega : k + 1 ≤ 2)]
          rw [this]
          exact h2
      · rw [cnA_cons_nl_ge hk]
        exact ih k
    · rw [cnA_cons_other hn, nT_cons_other hn]
      have h2 := ih 0
      simpa using h2

/-- cnA is the identity when every newline run respects the cap. -/
theorem cnA_id :
    ∀ l : List Char, ∀ k, nT k l = true → cnA k l = l := by
  intro l
  induction l with
  | nil => intro k _; rfl
  | cons x r ih =>
    intro k h
    by_cases hn : x = '\n'
    · subst hn
      rw [nT_cons_nl, Bool.and_eq_true] at h
      have hk : k < 2 := by simpa using h.1
      rw [cnA_cons_nl_lt hk]
      congr 1
      exact ih (k + 1) h.2
    · rw [nT_cons_other hn] at h
      rw [cnA_cons_other hn]
      congr 1
      exact ih 0 h

/-- Prepending to a list with a known last element. -/
theorem getLast_cons_some {t : List Char} (a c : Char)
    (h : t.getLast? = some c) : (a :: t).getLast? = some c := by
  cases t with
  | nil => simp at h
  | cons y t2 => rw [List.getLast?_cons_cons]; exact h

/-- cnA keeps a non-whitespace last character. -/
theorem cnA_last :
    ∀ l : List Char, ∀ k c, isPySpace c = false → l.getLast? = some c →
      (cnA k l).getLast? = some c := by
  intro l
  induction l with
  | nil => intro k c _ h; simp at h
  | cons x r ih =>
    intro k c hc h
    cases r with
    | nil =>
      simp at h
      subst h
      have hn : x ≠ '\n' := by
        intro he
        rw [he] at hc
        simp [isPySpace] at hc
      rw [cnA_cons_other hn]
      rfl
    | cons y t =>
      rw [List.getLast?_cons_cons] at h
      by_cases hn : x = '\n'
      · subst hn
        by_cases hk : k < 2
        · rw [cnA_cons_nl_lt hk]
          exact getLast_cons_some _ _ (ih (k + 1) c hc h)
        · rw [cnA_cons_nl_ge hk]
          exact ih k c hc h
      · rw [cnA_cons_other hn]
        exact getLast_cons_some _ _ (ih 0 c hc h)

/-- Unfolding nlToSpace: an isolated newline (fresh state, no newline next)
becomes a space. -/
theorem ns_cons_nl_single {r : List Char} (h : r.head? ≠ some '\n') :
    nlToSpace false ('\n' :: r) = ' ' :: nlToSpace true r := by
  simp [nlToSpace, h]

/-- Unfolding nlToSpace: a newline after a newline is kept. -/
theorem ns_cons_nl_prev (r : List Char) :
    nlToSpace true ('\n' :: r) = '\n' :: nlToSpace true r := by
  simp [nlToSpace]

/-- Unfolding nlToSpace: a newline before a newline is kept. -/
theorem ns_cons_nl_next {r : List Char} (h : r.head? = some '\n') (p : Bool) :
    nlToSpace p ('\n' :: r) = '\n' :: nlToSpace true r := by
  simp [nlToSpace, h]

/-- Unfolding nlToSpace on a non-newline. -/
theorem ns_cons_other {c : Char} (hc : c ≠ '\n') (p : Bool) (r : List Char) :
    nlToSpace p (c :: r) = c :: nlToSpace false r := by
  simp [nlToSpace, hc]

/-- nlToSpace keeps a leading newline whose successor is a newline. -/
theorem ns_head_ne {r : List Char} (h : r.head? ≠ some '\n') :
    (nlToSpace true r).head? ≠ some '\n' := by
  cases r with
  | nil => simp [nlToSpace]
  | cons c t =>
    simp only [List.head?_cons, ne_eq, Option.some.injEq] at h
    rw [ns_cons_other h true]
    simpa using h

/-- The output of nlToSpace has no isolated newline. -/
theorem ns_nlOK : ∀ l : List Char, ∀ p, nlOK p (nlToSpace p l) = true := by
  intro l
  induction l with
  | nil => intro p; rfl
  | cons c r ih =>
    intro p
    by_cases hc : c = '\n'
    · subst hc
      by_cases hr : r.head? = some '\n'
      · rw [ns_cons_nl_next hr, nlOK_cons_nl, Bool.and_eq_true]
        refine ⟨?_, ih true⟩
        cases r with
        | nil => simp at hr
        | cons y t =>
          simp only [List.head?_cons, Option.some.injEq] at hr
          subst hr
          rw [ns_cons_nl_prev]
          simp
      · cases p
        · rw [ns_cons_nl_single hr, nlOK_cons_other (by simp)]
          rw [nlOK_state (ns_head_ne hr) false true]
          exact ih true
        · rw [ns_cons_nl_prev, nlOK_cons_nl, Bool.and_eq_true]
          exact ⟨by simp, ih true⟩
    · rw [ns_cons_other hc, nlOK_cons_other hc]
      exact ih false

/-- nlToSpace is the identity when no newline is isolated. -/
theorem ns_id : ∀ l : List Char, ∀ p, nlOK p l = true → nlToSpace p l = l := by
  intro l
  induction l with
  | nil => intro p _; rfl
  | cons c r ih =>
    intro p h
    by_cases hc : c = '\n'
    · subst hc
      rw [nlOK_cons_nl, Bool.and_eq_true] at h
      rcases Bool.or_eq_true_iff.mp h.1 with hp | hr
      · rw [hp, ns_cons_nl_prev]
        congr 1
        exact ih true h.2
      · rw [decide_eq_true_iff] at hr
        rw [ns_cons_nl_next hr]
        congr 1
        exact ih true h.2
    · rw [ns_cons_other hc]
      rw [nlOK_cons_other hc] at h
      congr 1
      exact ih false h

/-- The de-hyphenation pass is the identity when no newline is isolated
(every newline of such input is followed or preceded by another newline, so
the hyphen-newline-word pattern never matches). -/
theorem dehyph_id : ∀ l : List Char, (∀ p, nlOK p l = true) → dehyph l = l := by
  have main : ∀ l : List Char, ∀ p, nlOK p l = true → dehyph l = l := by
    intro l
    induction l using dehyph.induct with
    | case1 a b rest h ih =>
      intro p hok
      exfalso
      have h1 := nlOK_tail hok
      have h2 := nlOK_tail h1
      simp only [decide_eq_false (by decide : ¬('-' = '\n'))] at h2
      rw [nlOK_cons_nl, Bool.and_eq_true] at h2
      rcases Bool.or_eq_true_iff.mp h2.1 with hf | hr
      · simp at hf
      · rw [decide_eq_true_iff] at hr
        simp only [List.head?_cons, Option.some.injEq] at hr
        subst hr
        simp [DemoLogger.isWordChar, DemoLogger.isLetterChar, Char.isAlphanum,
          Char.isAlpha, Char.isUpper, Char.isLower, Char.isDigit] at h
    | case2 a b rest h1 h2 ih =>
      intro p hok
      exfalso
      have hx1 := nlOK_tail hok
      have hx2 := nlOK_tail hx1
      simp only [decide_eq_false (by decide : ¬('-' = '\n'))] at hx2
      rw [nlOK_cons_nl, Bool.and_eq_true] at hx2
      rcases Bool.or_eq_true_iff.mp hx2.1 with hf | hr
      · simp at hf
      · rw [decide_eq_true_iff] at hr
        simp only [List.head?_cons, Option.some.injEq] at hr
        subst hr
        simp [DemoLogger.isWordChar, DemoLogger.isLetterChar, Char.isAlphanum,
          Char.isAlpha, Char.isUpper, Char.isLower, Char.isDigit] at h2
    | case3 a b rest h1 h2 ih =>
      intro p hok
      have hx1 := nlOK_tail hok
      have hx2 := nlOK_tail hx1
      simp only [decide_eq_false (by decide : ¬('-' = '\n'))] at hx2
      rw [nlOK_cons_nl, Bool.and_eq_true] at hx2
      have hx3 := nlOK_tail (show nlOK true (b :: rest) = true from hx2.2)
      simp only [dehyph]
      rw [if_neg h1, if_neg h2]
      congr 4
      exact ih _ hx3
    | case4 a rest h ih =>
      intro p hok
      rw [dehyph.eq_2 a rest h]
      congr 1
      exact ih _ (nlOK_tail hok)
    | case5 =>
      intro _ _
      rfl
  intro l h
  exact main l false (h false)

/-- stripTrail is the identity when the last character is not whitespace. -/
theorem stripTrail_id :
    ∀ l : List Char, (l.getLast?.any isPySpace) = false → stripTrail l = l := by
  intro l
  induction l with
  | nil => intro _; rfl
  | cons c r ih =>
    intro h
    cases r with
    | nil =>
      simp at h
      simp [stripTrail, h]
    | cons y t =>
      rw [List.getLast?_cons_cons] at h
      have hr := ih h
      have hstep : stripTrail (c :: y :: t) =
          if (stripTrail (y :: t)).isEmpty && isPySpace c then []
          else c :: stripTrail (y :: t) := rfl
      rw [hstep, hr, if_neg (by simp)]

/-- pyStrip is the identity on a list with non-whitespace ends. -/
theorem pyStrip_id (l : List Char) (h : endsOK l = true) : pyStrip l = l := by
  unfold endsOK at h
  rw [Bool.and_eq_true] at h
  unfold pyStrip
  have h1 : l.dropWhile isPySpace = l := by
    cases l with
    | nil => rfl
    | cons c r =>
      have hc : isPySpace c = false := by simpa using h.1
      rw [List.dropWhile_cons_of_neg (by simp [hc])]
  rw [h1]
  exact stripTrail_id l (by simpa using h.2)

/-- cnA preserves non-whitespace ends. -/
theorem cnA_endsOK (l : List Char) (h : endsOK l = true) :
    endsOK (cnA 0 l) = true := by
  unfold endsOK at h ⊢
  rw [Bool.and_eq_true] at h ⊢
  constructor
  · rw [cnA_head0]
    exact h.1
  · cases hl : l.getLast? with
    | none =>
      rw [List.getLast?_eq_none_iff] at hl
      subst hl
      rfl
    | some c =>
      have hc : isPySpace c = false := by
        rw [hl] at h
        simpa using h.2
      rw [cnA_last l 0 c hc hl]
      simp [hc]

/-- The output of the whole cleanup pass satisfies the shape invariant. -/
theorem Inv0_cleanL (l : List Char) : Inv0 (cleanL l) := by
  unfold cleanL Inv0
  set m2 := nlToSpace false (dehyph l) with hm2
  set m3 := cnA 0 m2 with hm3
  set m4 := csA false m3 with hm4
  set m5 := dsbA 0 m4 with hm5
  set m6 := dsaA false m5 with hm6
  refine ⟨?_, ?_, ?_, ?_, ?_, pyStrip_endsOK m6⟩
  · intro hmem
    have h6 : '\t' ∈ m6 := mem_pyStrip hmem
    have h5 : '\t' ∈ m5 := dsaA_mem m5 false '\t' h6
    exact absurd h5 (dsbA_notab m4 0 (csA_notab m3 false))
  · apply noPair_pyStrip
    apply dsaA_noDouble
    exact dsbA_noDouble m4 0 (by omega) (by omega) (csA_noDouble m3 false)
  · apply noPair_pyStrip
    apply dsaA_noSpNl
    exact dsbA_noSpNl m4 0
  · apply noPair_pyStrip
    exact dsaA_noNlSp m5 false
  · apply nlOK_pyStrip (p := false)
    apply dsaA_nlOK m5 false false (by simp)
    apply dsbA_nlOK m4 0 false false (by omega) (by simp)
    apply csA_nlOK m3 false false (by simp)
    have h0 := cnA_nlOK m2 0 (by simpa using ns_nlOK (dehyph l) false)
    simpa using h0

/-- On invariant-shaped input the whole cleanup pass reduces to the
newline-run collapse alone. -/
theorem cleanL_eq_cnA (l : List Char) (hInv : Inv0 l) :
    cleanL l = cnA 0 l := by
  obtain ⟨ht, hdd, hsn, hns, hnl, hends⟩ := hInv
  unfold cleanL
  rw [dehyph_id l (fun p => by
    cases p with
    | false => exact hnl
    | true => exact nlOK_mono hnl)]
  rw [ns_id l false hnl]
  set m := cnA 0 l with hm
  have hmt : '\t' ∉ m := fun hc => ht (cnA_mem l 0 '\t' hc)
  have hmdd : noPair ' ' ' ' m = true := cnA_noDouble l 0 hdd
  have hmsn : noPair ' ' '\n' m = true := cnA_noSpNl l 0 hsn
  have hmns : noPair '\n' ' ' m = true := cnA_noNlSp l 0 hns (by omega)
  rw [csA_id m false hmt hmdd (by simp)]
  rw [dsbA_eq m 0 hmsn (by omega)]
  simp only [List.replicate_zero, List.nil_append]
  rw [dsaA_eq m false hmns (by simp)]
  exact pyStrip_id m (cnA_endsOK l hends)

/-- The shape invariant survives the newline-run collapse. -/
theorem Inv0_cnA (l : List Char) (h : Inv0 l) : Inv0 (cnA 0 l) := by
  obtain ⟨ht, hdd, hsn, hns, hnl, hends⟩ := h
  refine ⟨fun hc => ht (cnA_mem l 0 '\t' hc), cnA_noDouble l 0 hdd,
    cnA_noSpNl l 0 hsn, cnA_noNlSp l 0 hns (by omega), ?_, cnA_endsOK l hends⟩
  have h0 := cnA_nlOK l 0 (by simpa using hnl)
  simpa using h0

/-- Two applications of the cleanup pass reach a fixed point on character
lists. -/
theorem cleanL_two_fixed (l : List Char) :
    cleanL (cleanL (cleanL l)) = cleanL (cleanL l) := by
  have hInv := Inv0_cleanL l
  have h2 : cleanL (cleanL l) = cnA 0 (cleanL l) := cleanL_eq_cnA _ hInv
  have hInv2 : Inv0 (cnA 0 (cleanL l)) := Inv0_cnA _ hInv
  have hT : nT 0 (cnA 0 (cleanL l)) = true := by
    simpa using cnA_nT (cleanL l) 0
  have h3 : cleanL (cnA 0 (cleanL l)) = cnA 0 (cnA 0 (cleanL l)) :=
    cleanL_eq_cnA _ hInv2
  have h4 : cnA 0 (cnA 0 (cleanL l)) = cnA 0 (cleanL l) := cnA_id _ 0 hT
  rw [h2, h3, h4]

end PdfUtils

/-- C6 (counterexample): clean_extracted_text is not idempotent — on the
input with a space between two paragraph breaks, the trailing-space removal
merges the two two-newline runs into a four-newline run after the newline
collapse has already run, and a second application collapses it further. -/
theorem c6_counterexample_not_idempotent :
    PdfUtils.clean_extracted_text
        (PdfUtils.clean_extracted_text ("a\n\n \n\nb")) ≠
      PdfUtils.clean_extracted_text ("a\n\n \n\nb") ∧
    PdfUtils.clean_extracted_text ("a\n\n \n\nb") = ("a\n\n\n\nb" : String) ∧
    PdfUtils.clean_extracted_text
        (PdfUtils.clean_extracted_text ("a\n\n \n\nb")) = ("a\n\nb" : String) := by
  refine ⟨by decide, by decide, by decide⟩

/-- C6 (amended): applying clean_extracted_text twice reaches a fixed point —
for every input string a third application changes nothing. -/
theorem c6_second_application_reaches_fixed_point :
    ∀ t : String,
      PdfUtils.clean_extracted_text (PdfUtils.clean_extracted_text
        (PdfUtils.clean_extracted_text t)) =
      PdfUtils.clean_extracted_text (PdfUtils.clean_extracted_text t) := by
  intro t
  by_cases h0 : t = ""
  · subst h0
    rfl
  · have e1 : PdfUtils.clean_extracted_text t =
        String.mk (PdfUtils.cleanL t.data) := by
      rw [PdfUtils.clean_extracted_text, if_neg h0]
    by_cases h1 : String.mk (PdfUtils.cleanL t.data) = ""
    · rw [e1, h1]
      rfl
    · have e2 : PdfUtils.clean_extracted_text (String.mk (PdfUtils.cleanL t.data)) =
          String.mk (PdfUtils.cleanL (PdfUtils.cleanL t.data)) := by
        rw [PdfUtils.clean_extracted_text, if_neg h1]
      by_cases h2 : String.mk (PdfUtils.cleanL (PdfUtils.cleanL t.data)) = ""
      · rw [e1, e2, h2]
        rfl
      · have e3 : PdfUtils.clean_extracted_text
            (String.mk (PdfUtils.cleanL (PdfUtils.cleanL t.data))) =
            String.mk (PdfUtils.cleanL (PdfUtils.cleanL (PdfUtils.cleanL t.data))) := by
          rw [PdfUtils.clean_extracted_text, if_neg h2]
        rw [e1, e2, e3, PdfUtils.cleanL_two_fixed]

namespace DemoLogger

/-- The replacement token is the placeholder followed by one space. -/
theorem dotTok_eq : dotTok = dotTok4 ++ [' '] := rfl

/-- A contiguous occurrence survives a cons on the left. -/
theorem ct_cons {pat l : List Char} (c : Char) (h : containsTok pat l) :
    containsTok pat (c :: l) := by
  obtain ⟨s, t, rfl⟩ := h
  exact ⟨c :: s, t, rfl⟩

/-- A contiguous occurrence survives appending on the right. -/
theorem ct_app_right {pat l : List Char} (x : List Char)
    (h : containsTok pat l) : containsTok pat (l ++ x) := by
  obtain ⟨s, t, rfl⟩ := h
  exact ⟨s, t ++ x, by simp⟩

/-- A contiguous occurrence survives appending on the left. -/
theorem ct_app_left {pat l : List Char} (x : List Char)
    (h : containsTok pat l) : containsTok pat (x ++ l) := by
  obtain ⟨s, t, rfl⟩ := h
  exact ⟨x ++ s, t, by simp⟩

/-- An occurrence of the full replacement token yields an occurrence of the
placeholder. -/
theorem ct_of_dotTok {l : List Char} (h : containsTok dotTok l) :
    containsTok dotTok4 l := by
  obtain ⟨s, t, rfl⟩ := h
  exact ⟨s, ' ' :: t, by simp [dotTok_eq]⟩

/-- A list is a prefix of itself extended on the right (in isPrefixOf
form). -/
theorem isPrefixOf_append_self :
    ∀ (a x : List Char), a.isPrefixOf (a ++ x) = true := by
  intro a
  induction a with
  | nil => intro x; simp [List.isPrefixOf]
  | cons c a' ih =>
    intro x
    simp only [List.cons_append, List.isPrefixOf, Bool.and_eq_true]
    exact ⟨by simp, ih x⟩

/-- matchOne succeeds on its own pattern occurrence. -/
theorem matchOne_self (alt : List Char) (w : Char) (v : List Char)
    (hw : isPySpace w = true) :
    matchOne alt (alt ++ '.' :: w :: v) = some v := by
  unfold matchOne
  rw [if_pos (isPrefixOf_append_self alt _)]
  rw [List.drop_left]
  simp [hw]

/-- matchOne fails when the first characters differ. -/
theorem matchOne_head_ne {a c : Char} {alt cs : List Char}
    (ha : alt.head? = some a) (hc : cs.head? = some c) (hne : a ≠ c) :
    matchOne alt cs = none := by
  cases alt with
  | nil => simp at ha
  | cons a0 alt' =>
    cases cs with
    | nil => simp at hc
    | cons c0 cs' =>
      simp only [List.head?_cons, Option.some.injEq] at ha hc
      subst ha hc
      unfold matchOne
      rw [if_neg]
      simp only [List.isPrefixOf, Bool.and_eq_true, not_and]
      intro hbeq
      exact absurd (by simpa using hbeq) hne

/-- If some member alternative matches, the alternation matches. -/
theorem matchAbb_fires :
    ∀ (alts : List (List Char)) (cs alt : List Char), alt ∈ alts →
      matchOne alt cs ≠ none → matchAbb alts cs ≠ none := by
  intro alts
  induction alts with
  | nil => intro cs alt h; simp at h
  | cons a as ih =>
    intro cs alt hmem hone
    rcases List.mem_cons.mp hmem with rfl | htail
    · cases hm : matchOne alt cs with
      | none => exact absurd hm hone
      | some r2 => simp [matchAbb, hm]
    · cases hm : matchOne a cs with
      | none =>
        simp only [matchAbb, hm]
        exact ih cs alt htail hone
      | some r2 => simp [matchAbb, hm]

/-- No German abbreviation alternative starts with an underscore. -/
theorem matchAbb_underscore (r : List Char) :
    matchAbb ABBREV2 ('_' :: r) = none := by
  have h1 : matchOne (String.data ("z.B")) ('_' :: r) = none :=
    matchOne_head_ne rfl rfl (by decide)
  have h2 : matchOne (String.data ("d.h")) ('_' :: r) = none :=
    matchOne_head_ne rfl rfl (by decide)
  have h3 : matchOne (String.data ("usw")) ('_' :: r) = none :=
    matchOne_head_ne rfl rfl (by decide)
  have h4 : matchOne (String.data ("ggfs")) ('_' :: r) = none :=
    matchOne_head_ne rfl rfl (by decide)
  simp [matchAbb, ABBREV2, h1, h2, h3, h4]

/-- Whenever the scanned text contains an abbreviation alternative followed
by a period and a whitespace character, at a position whose preceding
character (if any) is not a word character, the substitution pass fires
somewhere and its output contains the replacement token. -/
theorem subF_fires :
    ∀ (fuel : ℕ) (l : List Char) (prevW : Bool) (u alt v : List Char)
      (w : Char) (alts : List (List Char)),
      l.length ≤ fuel → alt ∈ alts →
      l = u ++ alt ++ '.' :: w :: v → isPySpace w = true →
      (u = [] → prevW = false) →
      (∀ c, u.getLast? = some c → isWordChar c = false) →
      containsTok dotTok (subAbbrevF alts fuel prevW l) := by
  intro fuel
  induction fuel with
  | zero =>
    intro l prevW u alt v w alts hlen _ hl _ _ _
    exfalso
    rw [hl] at hlen
    simp [List.length_append] at hlen
  | succ f ih =>
    intro l prevW u alt v w alts hlen hmem hl hw hpw hub
    cases l with
    | nil =>
      exfalso
      have hlc := congrArg List.length hl
      simp [List.length_append] at hlc
      omega
    | cons c rest =>
      have hlen' : rest.length ≤ f := by
        simp only [List.length_cons] at hlen
        omega
      cases u with
      | nil =>
        have hpw0 : prevW = false := hpw rfl
        subst hpw0
        simp only [List.nil_append] at hl
        cases hm : matchAbb alts (c :: rest) with
        | none =>
          exfalso
          apply matchAbb_fires alts (c :: rest) alt hmem ?_ hm
          rw [hl, matchOne_self alt w v hw]
          simp
        | some pr =>
          obtain ⟨alt2, r2⟩ := pr
          have hstep : subAbbrevF alts (f + 1) false (c :: rest) =
              alt2 ++ dotTok ++ subAbbrevF alts f false r2 := by
            simp [subAbbrevF, hm]
          rw [hstep]
          exact ⟨alt2, subAbbrevF alts f false r2, rfl⟩
      | cons c2 u' =>
        rw [List.cons_append] at hl
        injection hl with hc hrest
        subst hc
        have hub' : ∀ c', u'.getLast? = some c' → isWordChar c' = false :=
          fun c' hc' => hub c' (PdfUtils.getLast_cons_some _ _ hc')
        have hu0 : u' = [] → isWordChar c = false := by
          intro h0
          subst h0
          exact hub c (by simp)
        have hrec : containsTok dotTok (subAbbrevF alts f (isWordChar c) rest) :=
          ih rest (isWordChar c) u' alt v w alts hlen' hmem hrest hw hu0 hub'
        cases prevW with
        | true =>
          have hstep : subAbbrevF alts (f + 1) true (c :: rest) =
              c :: subAbbrevF alts f (isWordChar c) rest := by
            simp [subAbbrevF]
          rw [hstep]
          exact ct_cons c hrec
        | false =>
          cases hm : matchAbb alts (c :: rest) with
          | some pr =>
            obtain ⟨alt2, r2⟩ := pr
            have hstep : subAbbrevF alts (f + 1) false (c :: rest) =
                alt2 ++ dotTok ++ subAbbrevF alts f false r2 := by
              simp [subAbbrevF, hm]
            rw [hstep]
            exact ⟨alt2, subAbbrevF alts f false r2, rfl⟩
          | none =>
            have hstep : subAbbrevF alts (f + 1) false (c :: rest) =
                c :: subAbbrevF alts f (isWordChar c) rest := by
              simp [subAbbrevF, hm]
            rw [hstep]
            exact ct_cons c hrec

/-- A substitution pass either changes nothing or leaves the replacement
token in its output. -/
theorem subF_id_or_dot :
    ∀ (fuel : ℕ) (alts : List (List Char)) (p : Bool) (l : List Char),
      subAbbrevF alts fuel p l = l ∨
        containsTok dotTok (subAbbrevF alts fuel p l) := by
  intro fuel
  induction fuel with
  | zero => intro alts p l; left; rfl
  | succ f ih =>
    intro alts p l
    cases l with
    | nil => left; cases p <;> rfl
    | cons c rest =>
      cases p with
      | true =>
        have hstep : subAbbrevF alts (f + 1) true (c :: rest) =
            c :: subAbbrevF alts f (isWordChar c) rest := by
          simp [subAbbrevF]
        rw [hstep]
        rcases ih alts (isWordChar c) rest with heq | hct
        · left
          rw [heq]
        · right
          exact ct_cons c hct
      | false =>
        cases hm : matchAbb alts (c :: rest) with
        | some pr =>
          obtain ⟨alt2, r2⟩ := pr
          right
          have hstep : subAbbrevF alts (f + 1) false (c :: rest) =
              alt2 ++ dotTok ++ subAbbrevF alts f false r2 := by
            simp [subAbbrevF, hm]
          rw [hstep]
          exact ⟨alt2, subAbbrevF alts f false r2, rfl⟩
        | none =>
          have hstep : subAbbrevF alts (f + 1) false (c :: rest) =
              c :: subAbbrevF alts f (isWordChar c) rest := by
            simp [subAbbrevF, hm]
          rw [hstep]
          rcases ih alts (isWordChar c) rest with heq | hct
          · left
            rw [heq]
          · right
            exact ct_cons c hct

/-- The underscore is a word character and matches no German alternative, so
the scanner copies it and sets the word-boundary flag. -/
theorem subF2_underscore_step (f : ℕ) (p : Bool) (r : List Char) :
    subAbbrevF ABBREV2 (f + 1) p ('_' :: r) =
      '_' :: subAbbrevF ABBREV2 f true r := by
  have hw : isWordChar ('_') = true := by decide
  cases p with
  | true => simp [subAbbrevF, hw]
  | false => simp [subAbbrevF, matchAbb_underscore, hw]

/-- With the word-boundary flag set, the scanner copies a word character. -/
theorem subF2_word_step (f : ℕ) (c : Char) (hc : isWordChar c = true)
    (r : List Char) :
    subAbbrevF ABBREV2 (f + 1) true (c :: r) =
      c :: subAbbrevF ABBREV2 f true r := by
  simp [subAbbrevF, hc]

/-- The German pass keeps a leading placeholder occurrence in place. -/
theorem subF2_copy :
    ∀ (fuel : ℕ) (p : Bool) (t : List Char),
      containsTok dotTok4
        (subAbbrevF ABBREV2 fuel p ('_' :: 'D' :: 'O' :: 'T' :: t)) := by
  intro fuel p t
  cases fuel with
  | zero => exact ⟨[], t, rfl⟩
  | succ f =>
    rw [subF2_underscore_step]
    cases f with
    | zero => exact ⟨[], t, rfl⟩
    | succ f1 =>
      rw [subF2_word_step f1 ('D') (by decide)]
      cases f1 with
      | zero => exact ⟨[], t, rfl⟩
      | succ f2 =>
        rw [subF2_word_step f2 ('O') (by decide)]
        cases f2 with
        | zero => exact ⟨[], t, rfl⟩
        | succ f3 =>
          rw [subF2_word_step f3 ('T') (by decide)]
          exact ⟨[], subAbbrevF ABBREV2 f3 true t, rfl⟩

/-- Step equation: a head-position match substitutes and continues after the
match. -/
theorem subF_some_step (alts : List (List Char)) (f : ℕ) (c : Char)
    (r r2 alt : List Char) (hm : matchAbb alts (c :: r) = some (alt, r2)) :
    subAbbrevF alts (f + 1) false (c :: r) =
      alt ++ dotTok ++ subAbbrevF alts f false r2 := by
  simp [subAbbrevF, hm]

/-- Step equation: with no match at the head, the scanner copies the head
character. -/
theorem subF_none_step (alts : List (List Char)) (f : ℕ) (c : Char)
    (r : List Char) (hm : matchAbb alts (c :: r) = none) :
    subAbbrevF alts (f + 1) false (c :: r) =
      c :: subAbbrevF alts f (isWordChar c) r := by
  simp [subAbbrevF, hm]

/-- The German pass preserves any placeholder occurrence. -/
theorem subF2_keeps :
    ∀ (fuel : ℕ) (p : Bool) (l : List Char), containsTok dotTok4 l →
      containsTok dotTok4 (subAbbrevF ABBREV2 fuel p l) := by
  intro fuel
  induction fuel with
  | zero => intro p l h; exact h
  | succ f ih =>
    intro p l h
    obtain ⟨s, t, rfl⟩ := h
    cases s with
    | nil => exact subF2_copy (f + 1) p t
    | cons c2 s' =>
      have hrest : containsTok dotTok4 (s' ++ dotTok4 ++ t) := ⟨s', t, rfl⟩
      rw [List.cons_append, List.cons_append]
      cases p with
      | true =>
        rw [show subAbbrevF ABBREV2 (f + 1) true (c2 :: (s' ++ dotTok4 ++ t))
            = c2 :: subAbbrevF ABBREV2 f (isWordChar c2) (s' ++ dotTok4 ++ t)
            from by simp [subAbbrevF]]
        exact ct_cons c2 (ih (isWordChar c2) _ hrest)
      | false =>
        cases hm : matchAbb ABBREV2 (c2 :: (s' ++ dotTok4 ++ t)) with
        | some pr =>
          obtain ⟨alt2, r2⟩ := pr
          rw [subF_some_step ABBREV2 f c2 _ r2 alt2 hm]
          exact ⟨alt2, ' ' :: subAbbrevF ABBREV2 f false r2,
            by simp [dotTok_eq]⟩
        | none =>
          rw [subF_none_step ABBREV2 f c2 _ hm]
          exact ct_cons c2 (ih (isWordChar c2) _ hrest)

/-- The leading-whitespace strip keeps a placeholder occurrence (its first
character is an underscore, which is not whitespace). -/
theorem ct_dropWhile :
    ∀ (s t : List Char), ∃ s2,
      (s ++ dotTok4 ++ t).dropWhile isPySpace = s2 ++ dotTok4 ++ t := by
  intro s t
  induction s with
  | nil =>
    refine ⟨[], ?_⟩
    rw [List.nil_append,
      show dotTok4 ++ t = '_' :: (String.data ("DOT") ++ t) from rfl,
      List.dropWhile_cons, if_neg (by decide)]
  | cons c s' ih =>
    obtain ⟨s2, hs2⟩ := ih
    by_cases hc : isPySpace c = true
    · refine ⟨s2, ?_⟩
      rw [List.cons_append, List.cons_append, List.dropWhile_cons, if_pos hc]
      exact hs2
    · refine ⟨c :: s', ?_⟩
      rw [List.cons_append, List.cons_append, List.dropWhile_cons, if_neg hc]

/-- The last element of the right part of an append is the last element of
the whole. -/
theorem getLast_app_right :
    ∀ (l1 l2 : List Char) (c : Char), l2.getLast? = some c →
      (l1 ++ l2).getLast? = some c := by
  intro l1
  induction l1 with
  | nil => intro l2 c h; exact h
  | cons a l1' ih =>
    intro l2 c h
    rw [List.cons_append]
    exact PdfUtils.getLast_cons_some a c (ih l2 c h)

/-- stripTrail leaves untouched a prefix whose last character is not
whitespace. -/
theorem stripTrail_app :
    ∀ (a t : List Char),
      (∀ c, a.getLast? = some c → isPySpace c = false) →
      stripTrail (a ++ t) = a ++ stripTrail t := by
  intro a
  induction a with
  | nil => intro t _; rfl
  | cons c a' ih =>
    intro t hlast
    cases a' with
    | nil =>
      have hc : isPySpace c = false := hlast c (by simp)
      show stripTrail (c :: t) = c :: stripTrail t
      simp [stripTrail, hc]
    | cons c2 a'' =>
      have hlast' : ∀ d, (c2 :: a'').getLast? = some d → isPySpace d = false := by
        intro d hd
        apply hlast
        rw [List.getLast?_cons_cons]
        exact hd
      have hrec := ih t hlast'
      rw [List.cons_append]
      have hstep : stripTrail (c :: ((c2 :: a'') ++ t)) =
          if (stripTrail ((c2 :: a'') ++ t)).isEmpty && isPySpace c then []
          else c :: stripTrail ((c2 :: a'') ++ t) := rfl
      rw [hstep, hrec]
      simp [List.cons_append]

/-- Python str.strip preserves a placeholder occurrence. -/
theorem ct_pyStrip {l : List Char} (h : containsTok dotTok4 l) :
    containsTok dotTok4 (pyStrip l) := by
  obtain ⟨s, t, rfl⟩ := h
  obtain ⟨s2, hs2⟩ := ct_dropWhile s t
  unfold pyStrip
  rw [hs2]
  rw [show s2 ++ dotTok4 ++ t = (s2 ++ dotTok4) ++ t from rfl]
  rw [stripTrail_app (s2 ++ dotTok4) t
    (fun c hc => by
      rw [getLast_app_right s2 dotTok4 ('T') rfl] at hc
      injection hc with hc2
      rw [hc2.symm]
      decide)]
  exact ⟨s2, stripTrail t, rfl⟩

/-- With no pending punctuation, a non-terminator character is appended to
the current piece. -/
theorem spB_word_step (c : Char) (hp : isPunct c = false)
    (cur r : List Char) :
    spB false cur [] (c :: r) = spB false (cur ++ [c]) [] r := by
  simp [spB, hp]

/-- A piece already containing the placeholder yields an output piece
containing the placeholder, whatever input remains. -/
theorem spB_keep :
    ∀ (rest cur pend : List Char), containsTok dotTok4 cur →
      ∃ p ∈ spB false cur pend rest, containsTok dotTok4 p := by
  intro rest
  induction rest with
  | nil =>
    intro cur pend h
    exact ⟨cur ++ pend, by simp [spB], ct_app_right pend h⟩
  | cons c r ih =>
    intro cur pend h
    cases pend with
    | nil =>
      by_cases hp : isPunct c = true
      · rw [show spB false cur [] (c :: r) = spB false cur [c] r
            from by simp [spB, hp]]
        exact ih cur [c] h
      · rw [spB_word_step c (by simpa using hp) cur r]
        exact ih (cur ++ [c]) [] (ct_app_right [c] h)
    | cons p0 ps =>
      by_cases hp : isPunct c = true
      · rw [show spB false cur (p0 :: ps) (c :: r)
            = spB false cur ((p0 :: ps) ++ [c]) r from by simp [spB, hp]]
        exact ih cur ((p0 :: ps) ++ [c]) h
      · by_cases hs : isPySpace c = true
        · rw [show spB false cur (p0 :: ps) (c :: r)
              = cur :: spB true [] [] r from by simp [spB, hp, hs]]
          exact ⟨cur, by simp, h⟩
        · rw [show spB false cur (p0 :: ps) (c :: r)
              = spB false (cur ++ (p0 :: ps) ++ [c]) [] r
              from by simp [spB, hp, hs]]
          exact ih (cur ++ (p0 :: ps) ++ [c]) []
            (ct_app_right [c] (ct_app_right (p0 :: ps) h))

/-- Consuming the placeholder's D, O, T after its underscore builds a piece
that contains the placeholder. -/
theorem spB_run (Y t : List Char) :
    ∃ p ∈ spB false (Y ++ ['_']) [] (String.data ("DOT") ++ t),
      containsTok dotTok4 p := by
  rw [show String.data ("DOT") ++ t = 'D' :: ('O' :: ('T' :: t)) from rfl]
  rw [spB_word_step ('D') (by decide) _ _]
  rw [spB_word_step ('O') (by decide) _ _]
  rw [spB_word_step ('T') (by decide) _ _]
  apply spB_keep
  exact ⟨Y, [],
    by simp [show dotTok4 = ['_', 'D', 'O', 'T'] from rfl, List.append_assoc]⟩

/-- From any scanner state, a placeholder ahead in the input ends up inside
some output piece. -/
theorem spB_start :
    ∀ (t cur pend : List Char) (eat : Bool),
      ∃ p ∈ spB eat cur pend (dotTok4 ++ t), containsTok dotTok4 p := by
  intro t cur pend eat
  rw [show dotTok4 ++ t = '_' :: (String.data ("DOT") ++ t) from rfl]
  cases eat with
  | true =>
    rw [show spB true cur pend ('_' :: (String.data ("DOT") ++ t))
        = spB false ['_'] [] (String.data ("DOT") ++ t) from by
      simp [spB, show isPySpace ('_') = false from by decide,
        show isPunct ('_') = false from by decide]]
    exact spB_run [] t
  | false =>
    cases pend with
    | nil =>
      rw [spB_word_step ('_') (by decide) cur _]
      exact spB_run cur t
    | cons p0 ps =>
      rw [show spB false cur (p0 :: ps) ('_' :: (String.data ("DOT") ++ t))
          = spB false (cur ++ (p0 :: ps) ++ ['_']) []
              (String.data ("DOT") ++ t) from by
        simp [spB, show isPySpace ('_') = false from by decide,
          show isPunct ('_') = false from by decide]]
      exact spB_run (cur ++ (p0 :: ps)) t

/-- From any scanner state, a placeholder anywhere in the remaining input
ends up inside some output piece. -/
theorem spB_any :
    ∀ (s0 t : List Char) (eat : Bool) (cur pend : List Char),
      ∃ p ∈ spB eat cur pend (s0 ++ (dotTok4 ++ t)), containsTok dotTok4 p := by
  intro s0
  induction s0 with
  | nil => intro t eat cur pend; exact spB_start t cur pend eat
  | cons c s0' ih =>
    intro t eat cur pend
    rw [List.cons_append]
    cases eat with
    | true =>
      by_cases hs : isPySpace c = true
      · rw [show spB true cur pend (c :: (s0' ++ (dotTok4 ++ t)))
            = spB true [] [] (s0' ++ (dotTok4 ++ t)) from by simp [spB, hs]]
        exact ih t true [] []
      · by_cases hp : isPunct c = true
        · rw [show spB true cur pend (c :: (s0' ++ (dotTok4 ++ t)))
              = spB false [] [c] (s0' ++ (dotTok4 ++ t))
              from by simp [spB, hs, hp]]
          exact ih t false [] [c]
        · rw [show spB true cur pend (c :: (s0' ++ (dotTok4 ++ t)))
              = spB false [c] [] (s0' ++ (dotTok4 ++ t))
              from by simp [spB, hs, hp]]
          exact ih t false [c] []
    | false =>
      by_cases hp : isPunct c = true
      · rw [show spB false cur pend (c :: (s0' ++ (dotTok4 ++ t)))
            = spB false cur (pend ++ [c]) (s0' ++ (dotTok4 ++ t))
            from by simp [spB, hp]]
        exact ih t false cur (pend ++ [c])
      · cases pend with
        | nil =>
          rw [spB_word_step c (by simpa using hp) cur _]
          exact ih t false (cur ++ [c]) []
        | cons p0 ps =>
          by_cases hs : isPySpace c = true
          · rw [show spB false cur (p0 :: ps) (c :: (s0' ++ (dotTok4 ++ t)))
                = cur :: spB true [] [] (s0' ++ (dotTok4 ++ t))
                from by simp [spB, hp, hs]]
            obtain ⟨p, hmem, hct⟩ := ih t true [] []
            exact ⟨p, List.mem_cons_of_mem cur hmem, hct⟩
          · rw [show spB false cur (p0 :: ps) (c :: (s0' ++ (dotTok4 ++ t)))
                = spB false (cur ++ (p0 :: ps) ++ [c]) []
                    (s0' ++ (dotTok4 ++ t)) from by simp [spB, hp, hs]]
            exact ih t false (cur ++ (p0 :: ps) ++ [c]) []

/-- If the doubly substituted text contains the placeholder, so does some
returned sentence. -/
theorem ct_split_sentences (out : String)
    (h2 : containsTok dotTok4 (subAbbrev ABBREV2 (subAbbrev ABBREV1 out.data))) :
    ∃ s ∈ split_sentences out, containsTok dotTok4 s.data := by
  obtain ⟨s0, t0, heq⟩ := ct_pyStrip h2
  have hassoc : pyStrip (subAbbrev ABBREV2 (subAbbrev ABBREV1 out.data))
      = s0 ++ (dotTok4 ++ t0) := by rw [heq, List.append_assoc]
  obtain ⟨p, hmem, hct⟩ := spB_any s0 t0 false [] []
  have hctp : containsTok dotTok4 (pyStrip p) := ct_pyStrip hct
  have hne : pyStrip p ≠ [] := by
    obtain ⟨a, b, hab⟩ := hctp
    intro h0
    rw [h0] at hab
    have hlen := congrArg List.length hab
    simp [List.length_append] at hlen
    rw [show dotTok4.length = 4 from rfl] at hlen
    omega
  have hneS : String.mk (pyStrip p) ≠ "" := by
    intro h0
    apply hne
    have hd := congrArg String.data h0
    simpa using hd
  refine ⟨String.mk (pyStrip p), ?_, hctp⟩
  simp only [split_sentences]
  rw [List.mem_filter]
  constructor
  · refine List.mem_map.mpr ⟨p, ?_, rfl⟩
    simp only [splitPunct]
    rw [hassoc]
    exact hmem
  · simpa using hneS

end DemoLogger

section ClaimTenTheorems

open DemoLogger

/-- C10: (universal part) for every output text that contains a protected
abbreviation — an alternative of either abbreviation pattern — followed by a
period and a whitespace character, at a position not preceded by a word
character, some sentence returned by split_sentences contains the literal
placeholder "_DOT" (it is never restored); (example part) for the output
"Dr. Smith went home." the single returned sentence is
"Dr_DOT Smith went home.", whose letter-run word extraction counts the DOT
fragment as an extra word, so compute_metrics reports
avg_sentence_len_words = 5 rather than 4. -/
theorem c10_dot_placeholder_counts_extra_word :
    (∀ (out : String) (u alt v : List Char) (w : Char),
      (alt ∈ ABBREV1 ∨ alt ∈ ABBREV2) →
      out.data = u ++ alt ++ '.' :: w :: v →
      isPySpace w = true →
      (∀ c, u.getLast? = some c → isWordChar c = false) →
      ∃ s ∈ split_sentences out, containsTok dotTok4 s.data) ∧
    split_sentences ("Dr. Smith went home.")
      = [("Dr_DOT Smith went home." : String)] ∧
    get_words ("Dr_DOT Smith went home.")
      = [("Dr" : String), ("DOT" : String), ("Smith" : String),
         ("went" : String), ("home" : String)] ∧
    (get_words ("Dr_DOT Smith went home.")).length = 5 ∧
    (∀ (mc : String → String → ℚ) (src : String),
      (compute_metrics mc src ("Dr. Smith went home.")).avg_sentence_len_words
        = 5) := by
  refine ⟨?_, ?_, ?_, ?_, ?_⟩
  · intro out u alt v w hmem hl hw hub
    apply ct_split_sentences
    rcases hmem with h1 | h2
    · have hfire : containsTok dotTok (subAbbrev ABBREV1 out.data) :=
        subF_fires out.data.length out.data false u alt v w ABBREV1
          (le_refl _) h1 hl hw (fun _ => rfl) hub
      exact subF2_keeps _ _ _ (ct_of_dotTok hfire)
    · rcases subF_id_or_dot out.data.length ABBREV1 false out.data with
        heq | hct1
      · have hfire : containsTok dotTok
            (subAbbrevF ABBREV2 (subAbbrev ABBREV1 out.data).length false
              (subAbbrev ABBREV1 out.data)) := by
          apply subF_fires _ _ false u alt v w ABBREV2 (le_refl _) h2
          · rw [show subAbbrev ABBREV1 out.data
                = subAbbrevF ABBREV1 out.data.length false out.data from rfl,
              heq]
            exact hl
          · exact hw
          · exact fun _ => rfl
          · exact hub
        exact ct_of_dotTok hfire
      · exact subF2_keeps _ _ _ (ct_of_dotTok hct1)
  · with_unfolding_all decide
  · with_unfolding_all decide
  · with_unfolding_all decide
  · intro mc src
    have hsp : split_sentences ("Dr. Smith went home.")
        = [("Dr_DOT Smith went home." : String)] := by
      with_unfolding_all decide
    have hgw : get_words ("Dr. Smith went home.")
        ≠ ([] : List String) := by with_unfolding_all decide
    have hmain : compute_metrics mc src ("Dr. Smith went home.")
        = ⟨5, 0, compute_ari_score ("Dr. Smith went home."),
            mc src ("Dr. Smith went home.")⟩ := by
      simp only [compute_metrics, hsp]
      rw [if_neg]
      · simp only [MetricRecord.mk.injEq, eq_self_iff_true, and_true]
        exact ⟨by with_unfolding_all decide, by with_unfolding_all decide⟩
      · simp only [not_or]
        exact ⟨by simp, hgw⟩
    rw [hmain]

/-- Witness for C10's universal part: at the concrete output
"Dr. Smith went home." the hypotheses hold and some returned sentence
contains the placeholder. -/
theorem c10_witness :
    ∃ s ∈ split_sentences ("Dr. Smith went home."), containsTok dotTok4 s.data :=
  c10_dot_placeholder_counts_extra_word.1 ("Dr. Smith went home.")
    [] (String.data ("Dr")) (String.data ("Smith went home.")) ' '
    (Or.inl (by decide)) (by decide) (by decide) (by simp)

end ClaimTenTheorems
